import Mathlib

/-!
# Verification of the hatrack SMR (mmm) and wait-free queue cores

This file shallowly embeds the parts of the hatrack repository that the
checked claims are about:

* `src/mmm.h` — the epoch-based safe-memory-reclamation manager: the
  record header, the linearized-epoch acquisition loop, commit stamping
  and the helper protocol, and the create-epoch accessor;
* `src/src/hatrack_common.c` — the quicksort comparator used to order
  hash-table views;
* `src/src/queue/queue.c` — the segment-linked wait-free FIFO queue:
  initialization, enqueue and dequeue, both as a sequential functional
  embedding (every atomic operation acts on the current state, which is
  the semantics of a single-threaded execution) and as an interleaved
  small-step machine in which every step performs exactly one shared
  atomic access.

Modeling conventions.  C `uint64_t` counters (the global epoch, segment
indices) are modeled as unbounded `Nat`: the source documents (mmm.h's
long comment) that the epoch counter never reaches its 64-bit maximum in
any feasible execution, and no embedded algorithm relies on wraparound.
The exception is `hatrack_quicksort_cmp`, whose conversion of a 64-bit
difference to the 32-bit C `int` return type is the operative semantics
and is modeled exactly.  `void *` item payloads are modeled as `Nat`
(with `0` playing the role of `NULL`).  Allocation is modeled by a heap
that is a list of segments addressed by position; freeing (`mmm_retire`,
`mmm_retire_unused`) leaves the object in the heap, unreferenced, which
is unobservable through the queue's operations.
-/

namespace Hatrack

/-! ## mmm.h: record header and epoch helpers -/

/-- The SMR record header, `struct mmm_header_st` (mmm.h).  The retire
list link `next` and the payload are irrelevant to the claims and are
omitted; the three epoch fields are kept. -/
structure mmm_header where
  create_epoch : Nat
  write_epoch : Nat
  retire_epoch : Nat
deriving DecidableEq, Repr

/-- `mmm_commit_write` (mmm.h lines 399-418) acting on the pair (global
epoch counter, header of the record being committed).  The C code does
`cur_epoch = atomic_fetch_add(&mmm_epoch, 1) + 1` and then CASes
`write_epoch : 0 → cur_epoch`; the CAS succeeds exactly when
`write_epoch` is still `0`. -/
def mmm_commit_write (epoch : Nat) (h : mmm_header) : Nat × mmm_header :=
  let cur_epoch := epoch + 1
  (cur_epoch,
    if h.write_epoch = 0 then { h with write_epoch := cur_epoch } else h)

/-- `mmm_help_commit` (mmm.h lines 420-441) acting on the pair (global
epoch counter, optional record pointer).  A null pointer returns
immediately; otherwise the code loads `write_epoch` and, only if it is
`0`, bumps the epoch and CASes the new value in. -/
def mmm_help_commit (epoch : Nat) (p : Option mmm_header) :
    Nat × Option mmm_header :=
  match p with
  | none => (epoch, none)
  | some h =>
    if h.write_epoch = 0 then
      let cur_epoch := epoch + 1
      (cur_epoch, some { h with write_epoch := cur_epoch })
    else
      (epoch, some h)

/-- `mmm_get_create_epoch` (mmm.h lines 475-480):
`header->create_epoch ? header->create_epoch : header->write_epoch`. -/
def mmm_get_create_epoch (h : mmm_header) : Nat :=
  if h.create_epoch ≠ 0 then h.create_epoch else h.write_epoch

/-! ## mmm.h: the linearized-epoch acquisition loop

`mmm_start_linearized_op` (mmm.h lines 371-385) loops: publish
`mmm_reservations[mmm_mytid] = read_epoch`; reload the global epoch; if
the reload differs from the published reservation, repeat with the
reloaded value.  We model the successive atomic loads of `mmm_epoch` by
an oracle `Nat → Nat` giving the value returned by the `k`-th load
(an arbitrary oracle over-approximates every concurrent interference),
and model the caller's slot of `mmm_reservations` explicitly.  The loop
is not fuel-free total (a perpetually advancing epoch starves it), so
the embedding takes fuel and returns `none` on exhaustion; a `some`
result reports the returned epoch, the final published reservation, and
the index of the final (re-)load of the epoch counter. -/

/-- One round of the do/while loop of `mmm_start_linearized_op`: store
the reservation, reload the epoch counter, retry on mismatch. -/
def mmm_linearize_loop (oracle : Nat → Nat) :
    Nat → Nat → Nat → Option (Nat × Nat × Nat)
  | 0, _, _ => none
  | fuel + 1, k, read_epoch =>
    let reservation := read_epoch
    let reloaded := oracle k
    if reloaded ≠ reservation then
      mmm_linearize_loop oracle fuel (k + 1) reloaded
    else
      some (reloaded, reservation, k)

/-- `mmm_start_linearized_op`: the initial load of `mmm_epoch` is load
number `0`; the loop's reloads are loads `1, 2, …`. -/
def mmm_start_linearized_op (oracle : Nat → Nat) (fuel : Nat) :
    Option (Nat × Nat × Nat) :=
  mmm_linearize_loop oracle fuel 1 (oracle 0)

/-! ## queue.c: shared data model

Types mirror `queue_item_t`, `queue_segment_t`, `queue_seg_ptrs_t` and
`queue_t` from the queue header (declared outside `src/`; the layout is
fully determined by their uses in queue.c).  Segment pointers are
positions in an allocation heap (`QState.heap`); `mmm_alloc_committed`
returns zeroed memory, so a fresh segment has both indices `0`, a null
`next`, and all cells `{NULL, QUEUE_EMPTY}`.  `len` and `help_needed`
are modeled as `Int` (`atomic_fetch_sub` may transiently pass below a
concurrent reader's view; the claims never depend on 64-bit wrap). -/

/-- Cell states: `QUEUE_EMPTY`, `QUEUE_TOOSLOW`, `QUEUE_USED`. -/
inductive queue_cell_state
  | empty
  | tooslow
  | used
deriving DecidableEq, Repr

/-- `queue_item_t`: the cell payload and its state, CASed as a unit. -/
structure queue_item_t where
  item : Nat
  state : queue_cell_state
deriving DecidableEq, Repr

/-- `static const queue_item_t empty_cell = { NULL, QUEUE_EMPTY }`. -/
def empty_cell : queue_item_t := ⟨0, .empty⟩

/-- `static const queue_item_t too_slow_marker = { NULL, QUEUE_TOOSLOW }`. -/
def too_slow_marker : queue_item_t := ⟨0, .tooslow⟩

/-- `queue_segment_t`: size, the two indices, the successor link and
the cell array. -/
structure queue_segment_t where
  size : Nat
  enqueue_index : Nat
  dequeue_index : Nat
  next : Option Nat
  cells : List queue_item_t
deriving DecidableEq, Repr

/-- `queue_seg_ptrs_t`: the 128-bit (enqueue segment, dequeue segment)
pair, CASed as a unit. -/
structure queue_seg_ptrs_t where
  enqueue_segment : Nat
  dequeue_segment : Nat
deriving DecidableEq, Repr

/-- `queue_t`. -/
structure queue_t where
  segments : queue_seg_ptrs_t
  default_segment_size : Nat
  help_needed : Int
  len : Int
deriving DecidableEq, Repr

/-- A queue together with its allocation heap of segments; segment
pointers are positions into `heap`.  Allocation appends; nothing is
ever removed (a freed segment merely becomes unreferenced). -/
structure QState where
  q : queue_t
  heap : List queue_segment_t
deriving DecidableEq, Repr

/-- Modelled from the spec: `QUEUE_HELP_VALUE`, the enqueue step at
which to request help, is a compile-time constant declared outside
`src/` ("help_threshold — enqueue step at which to request help.
Typical: tens").  We fix a representative value; every theorem below
depends only on `step = 1 < QUEUE_HELP_VALUE` in uncontended runs. -/
def QUEUE_HELP_VALUE : Nat := 16

/-- Read a segment. -/
def getSeg (g : QState) (i : Nat) : Option queue_segment_t :=
  g.heap[i]?

/-- Update a segment in place (no-op on a dangling pointer, which no
reachable execution produces). -/
def updSeg (g : QState) (i : Nat) (f : queue_segment_t → queue_segment_t) :
    QState :=
  match g.heap[i]? with
  | some sg => { g with heap := g.heap.set i (f sg) }
  | none => g

/-- `segment->size` (written once before the segment is published). -/
def segSizeOf (g : QState) (i : Nat) : Nat :=
  ((getSeg g i).map queue_segment_t.size).getD 0

/-- `atomic_load(&segment->enqueue_index)`. -/
def enqIdxOf (g : QState) (i : Nat) : Nat :=
  ((getSeg g i).map queue_segment_t.enqueue_index).getD 0

/-- `atomic_load(&segment->dequeue_index)`. -/
def deqIdxOf (g : QState) (i : Nat) : Nat :=
  ((getSeg g i).map queue_segment_t.dequeue_index).getD 0

/-- `atomic_load(&segment->next)`. -/
def nextOf (g : QState) (i : Nat) : Option Nat :=
  (getSeg g i).bind queue_segment_t.next

/-- Read cell `j` of segment `i`. -/
def getCellQ (g : QState) (i j : Nat) : Option queue_item_t :=
  (getSeg g i).bind fun sg => sg.cells[j]?

/-- Write cell `j` of segment `i`. -/
def setCellQ (g : QState) (i j : Nat) (v : queue_item_t) : QState :=
  updSeg g i fun sg => { sg with cells := sg.cells.set j v }

/-- `atomic_fetch_add(&segment->enqueue_index, step)`: returns the old
value and the bumped state. -/
def faaEnqIdx (g : QState) (i step : Nat) : QState × Nat :=
  (updSeg g i fun sg => { sg with enqueue_index := sg.enqueue_index + step },
    enqIdxOf g i)

/-- `atomic_fetch_add(&segment->dequeue_index, 1)`. -/
def faaDeqIdx (g : QState) (i : Nat) : QState × Nat :=
  (updSeg g i fun sg => { sg with dequeue_index := sg.dequeue_index + 1 },
    deqIdxOf g i)

/-- `atomic_fetch_add/sub(&self->len, 1)`. -/
def adjLen (g : QState) (d : Int) : QState :=
  { g with q := { g.q with len := g.q.len + d } }

/-- `atomic_fetch_add/sub(&self->help_needed, 1)`. -/
def adjHelp (g : QState) (d : Int) : QState :=
  { g with q := { g.q with help_needed := g.q.help_needed + d } }

/-- `queue_new_segment` (queue.c lines 27-38): `mmm_alloc_committed`
returns zeroed memory and only `size` is assigned. -/
def queue_new_segment (num_cells : Nat) : queue_segment_t :=
  ⟨num_cells, 0, 0, none, List.replicate num_cells empty_cell⟩

/-- `queue_init_size` (queue.c lines 46-72), parameterized over the
configuration constants `QSIZE_LOG_MIN ≤ QSIZE_LOG_MAX` and
`QSIZE_LOG_DEFAULT`, which are declared outside `src/` (the spec fixes
only "Valid range `[MIN, MAX]`; default `MID`").  `abort()` is the
`none` result.  A zero `size_log` is replaced by the default *before*
the range check; otherwise a `size_log` outside the valid range aborts.
The `char` argument is modeled as `Int`. -/
def queue_init_size (qmin qmax qdef : Int) (size_log : Int) :
    Option QState :=
  if size_log = 0 then
    let seg_cells := 2 ^ qdef.toNat
    some ⟨⟨⟨0, 0⟩, seg_cells, 0, 0⟩, [queue_new_segment seg_cells]⟩
  else if size_log < qmin ∨ qmax < size_log then
    none
  else
    let seg_cells := 2 ^ size_log.toNat
    some ⟨⟨⟨0, 0⟩, seg_cells, 0, 0⟩, [queue_new_segment seg_cells]⟩

/-! ## queue.c: sequential embedding of enqueue

`queue_enqueue` (queue.c lines 134-251) under single-threaded execution:
every atomic load, store, CAS and fetch-add acts on the current state.
The `try_again` loop becomes a fueled recursion (`none` = fuel ran out;
the theorems show fuel 2 suffices from every reachable state).  The
local variables `item, step, need_help, segments, segment, end_size,
cur_ix, new_size` are threaded as arguments; note that the C code never
refreshes `end_size` after adopting another segment, and neither do
we. -/

/-- The `while (!CAS(&self->segments, &segments, candidate_segments))`
loop of queue.c lines 230-235: on failure, give up if someone already
moved the enqueue half, otherwise refresh the dequeue half of the
candidate and retry. -/
def queue_enqueue_swing (g : QState) (expected : queue_seg_ptrs_t)
    (seg new_seg : Nat) : Nat → QState
  | 0 => g
  | fuel + 1 =>
    if g.q.segments = expected then
      { g with q := { g.q with segments := ⟨new_seg, expected.dequeue_segment⟩ } }
    else
      let actual := g.q.segments
      if actual.enqueue_segment ≠ seg then g
      else queue_enqueue_swing g actual seg new_seg fuel

/-- The successor-segment publication (queue.c lines 211-250): allocate
the new segment with our item pre-stored in cell 0 and
`enqueue_index = 1`; CAS it into `segment->next` (adopting the winner on
failure, where `mmm_retire_unused` frees our allocation — modeled as
leaving it unreferenced in the heap); then swing
`self->segments.enqueue_segment`.  Returns the state plus `none` when
our cell-0 store stands (`need_to_enqueue == false`) or `some adopted`
when we must retry in the winner's segment. -/
def queue_enqueue_install (item : Nat) (g : QState)
    (segs : queue_seg_ptrs_t) (seg new_size : Nat) :
    Nat → QState × Option Nat := fun swing_fuel =>
  let new_seg_val : queue_segment_t :=
    ⟨new_size, 1, 0, none, ⟨item, .used⟩ :: List.replicate (new_size - 1) empty_cell⟩
  let new_id := g.heap.length
  let g1 : QState := { g with heap := g.heap ++ [new_seg_val] }
  match nextOf g1 seg with
  | none =>
    let g2 := updSeg g1 seg fun sg => { sg with next := some new_id }
    (queue_enqueue_swing g2 segs seg new_id swing_fuel, none)
  | some winner =>
    (queue_enqueue_swing g1 segs seg winner swing_fuel, some winner)

/-- The `try_again` loop of `queue_enqueue` (queue.c lines 163-250). -/
def queue_enqueue_loop (item : Nat) :
    Nat → QState → Nat → Nat → Nat → Nat → Bool → Option QState
  | 0, _, _, _, _, _, _ => none
  | fuel + 1, g, seg, end_size, cur_ix, step, need_help =>
    if cur_ix < end_size then
      -- CAS(&segment->cells[cur_ix], &expected, candidate)
      match getCellQ g seg cur_ix with
      | some c =>
        if c = empty_cell then
          let g1 := setCellQ g seg cur_ix ⟨item, .used⟩
          let g2 := if need_help then adjHelp g1 (-1) else g1
          some (adjLen g2 1)
        else
          -- CAS failed: step <<= 1; cur_ix = FAA(&enqueue_index, step)
          let step2 := step * 2
          let p := faaEnqIdx g seg step2
          queue_enqueue_loop item fuel p.1 seg end_size p.2 step2 need_help
      | none =>
        -- out-of-bounds cell (no reachable state produces this); the
        -- CAS cannot observe the expected empty cell, so it fails
        let step2 := step * 2
        let p := faaEnqIdx g seg step2
        queue_enqueue_loop item fuel p.1 seg end_size p.2 step2 need_help
    else
      if QUEUE_HELP_VALUE ≤ step ∧ need_help = false then
        -- announce that we need help, then re-check the enqueue segment
        let g1 := adjHelp g 1
        let segs := g1.q.segments
        if segs.enqueue_segment ≠ seg then
          let p := faaEnqIdx g1 segs.enqueue_segment step
          queue_enqueue_loop item fuel p.1 segs.enqueue_segment end_size p.2 step true
        else
          let new_size := segSizeOf g1 seg * 2
          match queue_enqueue_install item g1 segs seg new_size fuel with
          | (g2, none) =>
            let g3 := adjHelp g2 (-1)
            some (adjLen g3 1)
          | (g2, some adopted) =>
            let p := faaEnqIdx g2 adopted step
            queue_enqueue_loop item fuel p.1 adopted end_size p.2 step true
      else
        let segs := g.q.segments
        if segs.enqueue_segment ≠ seg then
          let p := faaEnqIdx g segs.enqueue_segment step
          queue_enqueue_loop item fuel p.1 segs.enqueue_segment end_size p.2 step need_help
        else
          let new_size :=
            if g.q.help_needed ≠ 0 then segSizeOf g seg * 2
            else g.q.default_segment_size
          match queue_enqueue_install item g segs seg new_size fuel with
          | (g2, none) =>
            let g3 := if need_help then adjHelp g2 (-1) else g2
            some (adjLen g3 1)
          | (g2, some adopted) =>
            let p := faaEnqIdx g2 adopted step
            queue_enqueue_loop item fuel p.1 adopted end_size p.2 step need_help

/-- `queue_enqueue` (queue.c lines 134-251): read the segment pair,
fetch-add the enqueue index by `step = 1`, and enter `try_again`. -/
def queue_enqueue (g : QState) (item : Nat) (fuel : Nat) : Option QState :=
  let segs := g.q.segments
  let seg := segs.enqueue_segment
  let end_size := segSizeOf g seg
  let p := faaEnqIdx g seg 1
  queue_enqueue_loop item fuel p.1 seg end_size p.2 1 false

/-! ## queue.c: sequential embedding of dequeue -/

/-- The `while (!CAS(&self->segments, &segments, candidate_segments))`
loop of queue.c lines 316-331.  Returns the state, the refreshed
`segments` snapshot and the segment to continue dequeuing from. -/
def queue_dequeue_swing (g : QState) (expected : queue_seg_ptrs_t)
    (seg new_seg : Nat) : Nat → Option (QState × queue_seg_ptrs_t × Nat)
  | 0 => none
  | fuel + 1 =>
    if g.q.segments = expected then
      let cand : queue_seg_ptrs_t := ⟨expected.enqueue_segment, new_seg⟩
      -- success: mmm_retire(segment) (a no-op on the modeled heap),
      -- then continue in the new dequeue segment
      some ({ g with q := { g.q with segments := cand } }, cand, new_seg)
    else
      let actual := g.q.segments
      if actual.dequeue_segment ≠ seg then
        -- someone else advanced the dequeue segment: retry there
        some (g, actual, actual.dequeue_segment)
      else
        -- the enqueue half moved: retry the CAS with it refreshed
        queue_dequeue_swing g actual seg new_seg fuel

/-- `queue_dequeue` (queue.c lines 253-338): the `retry_dequeue` loop.
Returns `(state, found, item)`; `found = false` is the
`hatrack_not_found_w_mmm` path, which returns `NULL` (modeled `0`). -/
def queue_dequeue_loop :
    Nat → QState → queue_seg_ptrs_t → Nat → Option (QState × Bool × Nat)
  | 0, _, _, _ => none
  | fuel + 1, g, segs, seg =>
    let cur_ix := deqIdxOf g seg
    let head_ix := enqIdxOf g seg
    if cur_ix ≥ segSizeOf g seg then
      -- segment advance, queue.c lines 302-337
      match nextOf g seg with
      | none => some (g, false, 0)
      | some new_seg =>
        match queue_dequeue_swing g segs seg new_seg (fuel + 1) with
        | none => none
        | some (g1, segs1, seg1) => queue_dequeue_loop fuel g1 segs1 seg1
    else if cur_ix ≥ head_ix then
      some (g, false, 0)
    else
      let p := faaDeqIdx g seg
      if p.2 ≥ segSizeOf p.1 seg then
        match nextOf p.1 seg with
        | none => some (p.1, false, 0)
        | some new_seg =>
          match queue_dequeue_swing p.1 segs seg new_seg (fuel + 1) with
          | none => none
          | some (g1, segs1, seg1) => queue_dequeue_loop fuel g1 segs1 seg1
      else
        match getCellQ p.1 seg p.2 with
        | some c =>
          if c = empty_cell then
            -- CAS succeeded: we poisoned a slow enqueuer's cell
            queue_dequeue_loop fuel (setCellQ p.1 seg p.2 too_slow_marker) segs seg
          else
            -- CAS failed: the cell holds a value
            some (adjLen p.1 (-1), true, c.item)
        | none =>
          -- out-of-bounds cell (no reachable state produces this);
          -- nothing to read, keep looping
          queue_dequeue_loop fuel p.1 segs seg

/-- `queue_dequeue` entry: read the segment pair and loop. -/
def queue_dequeue (g : QState) (fuel : Nat) : Option (QState × Bool × Nat) :=
  let segs := g.q.segments
  queue_dequeue_loop fuel g segs segs.dequeue_segment

/-! ## Sequential operation sequences and the abstract FIFO -/

/-- A queue operation issued by the (single-threaded) client. -/
inductive SeqOp
  | enq (x : Nat)
  | deq
deriving DecidableEq, Repr

/-- Run a list of operations sequentially from `g`, collecting each
dequeue's `(found, item)` outcome.  Enqueue gets fuel 2 and dequeue
fuel `heap.length + 1`; the refinement theorem shows these bounds are
never hit from reachable states. -/
def runOps : QState → List SeqOp → Option (QState × List (Bool × Nat))
  | g, [] => some (g, [])
  | g, .enq x :: rest =>
    match queue_enqueue g x 2 with
    | none => none
    | some g' => runOps g' rest
  | g, .deq :: rest =>
    match queue_dequeue g (g.heap.length + 1) with
    | none => none
    | some (g', f, x) =>
      match runOps g' rest with
      | none => none
      | some (g'', outs) => some (g'', (f, x) :: outs)

/-- The abstract FIFO: the queue is just the list of pending items. -/
def absRun : List Nat → List SeqOp → List Nat × List (Bool × Nat)
  | pending, [] => (pending, [])
  | pending, .enq x :: rest => absRun (pending ++ [x]) rest
  | pending, .deq :: rest =>
    match pending with
    | [] =>
      let r := absRun [] rest
      (r.1, (false, 0) :: r.2)
    | y :: pending' =>
      let r := absRun pending' rest
      (r.1, (true, y) :: r.2)

/-- The items enqueued by a list of operations, in order. -/
def enqItems (ops : List SeqOp) : List Nat :=
  ops.filterMap fun op => match op with | .enq x => some x | .deq => none

/-- Number of enqueue operations. -/
def enqCount (ops : List SeqOp) : Nat := (enqItems ops).length

/-- Number of dequeues that reported `found = true`. -/
def foundCount (outs : List (Bool × Nat)) : Nat :=
  (outs.filter fun o => o.1).length

/-! ## queue.c: interleaved small-step machine

The same two functions, now as a thread-interleaving state machine:
each step performs exactly one access to shared memory (one atomic
load, store, CAS or fetch-add) plus local computation, which is the
grain of C11 atomics.  Thread-local variables live in per-thread
records; a scheduler chooses which thread steps next.

One deliberate fold: the three initializing stores to a freshly
allocated successor segment (queue.c lines 211-215: `queue_new_segment`,
`new_segment->enqueue_index = 1`, the store of our item into
`cells[0]`) happen while the segment is still private to the allocating
thread — no other thread holds a reference until the CAS on
`segment->next` publishes it — so they are modeled as a single
allocation step that creates the segment with cell 0 already `USED`.
That store is the claim C6's "store to cell 0 of a not-yet-published
fresh segment". -/

/-- Program counter of an in-flight `queue_enqueue`.  Each constructor
is the next shared access to perform. -/
inductive enq_pc
  | readSegs   -- line 156: segments = atomic_read(&self->segments)
  | faa        -- lines 159/177/188/199/248: cur_ix = FAA(&enqueue_index, step)
  | casCell    -- line 166: CAS(&segment->cells[cur_ix], empty → used)
  | helpInc    -- line 182: FAA(&self->help_needed, 1)
  | reloadA    -- line 184: segments = atomic_read (help branch)
  | reloadB    -- line 195: segments = atomic_read (no-help branch)
  | readHelp   -- line 203: atomic_read(&self->help_needed)
  | allocSeg   -- lines 211-215: allocate + privately initialize
  | casNext    -- line 218: CAS(&segment->next, NULL → new_segment)
  | casSegs    -- lines 230-235: CAS(&self->segments, ...)
  | helpDec    -- lines 169/239: FAA(&self->help_needed, -1)
  | lenInc     -- lines 173/243: FAA(&self->len, 1)
deriving DecidableEq, Repr

/-- Thread-local variables of `queue_enqueue`. -/
structure enq_locals where
  item : Nat
  step : Nat
  needHelp : Bool
  needToEnq : Bool
  segs : queue_seg_ptrs_t
  seg : Nat
  endSize : Nat
  curIx : Nat
  newSize : Nat
  newSeg : Nat
deriving DecidableEq, Repr

/-- Program counter of an in-flight `queue_dequeue`. -/
inductive deq_pc
  | readSegs   -- line 267: segments = atomic_read(&self->segments)
  | loadIdx    -- line 273: cur_ix = atomic_load(&dequeue_index)
  | loadHead   -- line 274: head_ix = atomic_load(&enqueue_index)
  | faa        -- line 284: cur_ix = FAA(&dequeue_index, 1)
  | casCell    -- line 291: CAS(&cells[cur_ix], empty → too_slow)
  | lenDec     -- line 297: FAA(&self->len, -1)
  | loadNext   -- line 302: new_segment = atomic_read(&segment->next)
  | casSegs    -- lines 316-331: CAS(&self->segments, ...)
deriving DecidableEq, Repr

/-- Thread-local variables of `queue_dequeue`. -/
structure deq_locals where
  segs : queue_seg_ptrs_t
  seg : Nat
  curIx : Nat
  newSeg : Nat
deriving DecidableEq, Repr

/-- A thread: an in-flight enqueue, an in-flight dequeue, or a finished
operation carrying its `(found, item)` result (`(true, 0)` for a
finished enqueue). -/
inductive thread_conf
  | enq (t : enq_locals) (pc : enq_pc)
  | deq (t : deq_locals) (pc : deq_pc)
  | finished (found : Bool) (ret : Nat)
deriving DecidableEq, Repr

/-- A fresh thread about to run `queue_enqueue(self, item)`. -/
def enqThread (item : Nat) : thread_conf :=
  .enq ⟨item, 1, false, false, ⟨0, 0⟩, 0, 0, 0, 0, 0⟩ .readSegs

/-- A fresh thread about to run `queue_dequeue(self, &found)`. -/
def deqThread : thread_conf :=
  .deq ⟨⟨0, 0⟩, 0, 0, 0⟩ .readSegs

/-- One shared-memory step of an in-flight enqueue. -/
def enqStep (g : QState) (t : enq_locals) :
    enq_pc → QState × thread_conf
  | .readSegs =>
    let segs := g.q.segments
    let seg := segs.enqueue_segment
    (g, .enq { t with segs := segs, seg := seg, endSize := segSizeOf g seg } .faa)
  | .faa =>
    let p := faaEnqIdx g t.seg t.step
    let t1 := { t with curIx := p.2 }
    if t1.curIx < t1.endSize then
      (p.1, .enq t1 .casCell)
    else if QUEUE_HELP_VALUE ≤ t1.step ∧ t1.needHelp = false then
      (p.1, .enq t1 .helpInc)
    else
      (p.1, .enq t1 .reloadB)
  | .casCell =>
    match getCellQ g t.seg t.curIx with
    | some c =>
      if c = empty_cell then
        let g1 := setCellQ g t.seg t.curIx ⟨t.item, .used⟩
        (g1, .enq t (if t.needHelp then .helpDec else .lenInc))
      else
        (g, .enq { t with step := t.step * 2 } .faa)
    | none =>
      -- out-of-bounds CAS (latent in the C when `end_size` is stale
      -- and larger than the adopted segment); touches no modeled cell
      (g, .enq { t with step := t.step * 2 } .faa)
  | .helpInc =>
    (adjHelp g 1, .enq { t with needHelp := true } .reloadA)
  | .reloadA =>
    let segs := g.q.segments
    if segs.enqueue_segment ≠ t.seg then
      (g, .enq { t with segs := segs, seg := segs.enqueue_segment } .faa)
    else
      (g, .enq { t with segs := segs, newSize := segSizeOf g t.seg * 2 } .allocSeg)
  | .reloadB =>
    let segs := g.q.segments
    if segs.enqueue_segment ≠ t.seg then
      (g, .enq { t with segs := segs, seg := segs.enqueue_segment } .faa)
    else
      (g, .enq { t with segs := segs } .readHelp)
  | .readHelp =>
    let h := g.q.help_needed
    let newSize := if h ≠ 0 then segSizeOf g t.seg * 2 else g.q.default_segment_size
    (g, .enq { t with newSize := newSize } .allocSeg)
  | .allocSeg =>
    let new_seg_val : queue_segment_t :=
      ⟨t.newSize, 1, 0, none, ⟨t.item, .used⟩ :: List.replicate (t.newSize - 1) empty_cell⟩
    ({ g with heap := g.heap ++ [new_seg_val] },
      .enq { t with newSeg := g.heap.length } .casNext)
  | .casNext =>
    match nextOf g t.seg with
    | none =>
      let g1 := updSeg g t.seg fun sg => { sg with next := some t.newSeg }
      (g1, .enq { t with needToEnq := false } .casSegs)
    | some winner =>
      (g, .enq { t with newSeg := winner, needToEnq := true } .casSegs)
  | .casSegs =>
    if g.q.segments = t.segs then
      let g1 : QState :=
        { g with q := { g.q with segments := ⟨t.newSeg, t.segs.dequeue_segment⟩ } }
      if t.needToEnq then
        (g1, .enq { t with seg := t.newSeg } .faa)
      else
        (g1, .enq t (if t.needHelp then .helpDec else .lenInc))
    else
      let actual := g.q.segments
      if actual.enqueue_segment ≠ t.seg then
        if t.needToEnq then
          (g, .enq { t with segs := actual, seg := t.newSeg } .faa)
        else
          (g, .enq { t with segs := actual } (if t.needHelp then .helpDec else .lenInc))
      else
        (g, .enq { t with segs := actual } .casSegs)
  | .helpDec =>
    (adjHelp g (-1), .enq t .lenInc)
  | .lenInc =>
    (adjLen g 1, .finished true 0)

/-- One shared-memory step of an in-flight dequeue. -/
def deqStep (g : QState) (t : deq_locals) :
    deq_pc → QState × thread_conf
  | .readSegs =>
    let segs := g.q.segments
    (g, .deq { t with segs := segs, seg := segs.dequeue_segment } .loadIdx)
  | .loadIdx =>
    (g, .deq { t with curIx := deqIdxOf g t.seg } .loadHead)
  | .loadHead =>
    let head_ix := enqIdxOf g t.seg
    if t.curIx ≥ segSizeOf g t.seg then
      (g, .deq t .loadNext)
    else if t.curIx ≥ head_ix then
      (g, .finished false 0)
    else
      (g, .deq t .faa)
  | .faa =>
    let p := faaDeqIdx g t.seg
    let t1 := { t with curIx := p.2 }
    if t1.curIx ≥ segSizeOf p.1 t1.seg then
      (p.1, .deq t1 .loadNext)
    else
      (p.1, .deq t1 .casCell)
  | .casCell =>
    match getCellQ g t.seg t.curIx with
    | some c =>
      if c = empty_cell then
        (setCellQ g t.seg t.curIx too_slow_marker, .deq t .loadIdx)
      else
        (g, .deq { t with curIx := c.item } .lenDec)
    | none =>
      -- out-of-bounds CAS; touches no modeled cell
      (g, .deq t .loadIdx)
  | .lenDec =>
    (adjLen g (-1), .finished true t.curIx)
  | .loadNext =>
    match nextOf g t.seg with
    | none => (g, .finished false 0)
    | some new_seg => (g, .deq { t with newSeg := new_seg } .casSegs)
  | .casSegs =>
    if g.q.segments = t.segs then
      let cand : queue_seg_ptrs_t := ⟨t.segs.enqueue_segment, t.newSeg⟩
      ({ g with q := { g.q with segments := cand } },
        .deq { t with segs := cand, seg := t.newSeg } .loadIdx)
    else
      let actual := g.q.segments
      if actual.dequeue_segment ≠ t.seg then
        (g, .deq { t with segs := actual, seg := actual.dequeue_segment } .loadIdx)
      else
        (g, .deq { t with segs := actual } .casSegs)

/-- One step of an arbitrary thread. -/
def stepThread (g : QState) : thread_conf → QState × thread_conf
  | .enq t pc => enqStep g t pc
  | .deq t pc => deqStep g t pc
  | .finished f r => (g, .finished f r)

/-- A machine configuration: the shared state plus every thread. -/
structure MConfig where
  g : QState
  threads : List thread_conf
deriving DecidableEq, Repr

/-- Let thread `i` take one step (no-op on an out-of-range index or a
finished thread). -/
def stepConfig (cfg : MConfig) (i : Nat) : MConfig :=
  match cfg.threads[i]? with
  | none => cfg
  | some t =>
    let p := stepThread cfg.g t
    ⟨p.1, cfg.threads.set i p.2⟩

/-- Run a schedule: the list names, in order, which thread steps. -/
def runSched (cfg : MConfig) (sched : List Nat) : MConfig :=
  sched.foldl stepConfig cfg

/-- `ch` is a next-linked chain through the heap of `g`: consecutive
elements are linked by `next`, and the last element's `next` is null. -/
def links (g : QState) : List Nat → Prop
  | [] => True
  | [i] => nextOf g i = none
  | i :: j :: rest => nextOf g i = some j ∧ links g (j :: rest)

/-- "The dequeue segment is never further down the chain than the
enqueue segment": there is a next-chain that starts at the dequeue
segment and ends at the enqueue segment. -/
def deqNotPastEnq (g : QState) : Prop :=
  ∃ ch : List Nat,
    ch.head? = some g.q.segments.dequeue_segment ∧
    ch.getLast? = some g.q.segments.enqueue_segment ∧
    links g ch

/-- Cell monotonicity between two shared states: every cell readable in
`g` that is non-EMPTY reads identically in `g'`, and a cell that did
change was EMPTY and became USED or TOOSLOW. -/
def CellsMono (g g' : QState) : Prop :=
  ∀ a b c, getCellQ g a b = some c →
    (c.state ≠ .empty → getCellQ g' a b = some c) ∧
    (∀ c', getCellQ g' a b = some c' → c' ≠ c →
      c.state = .empty ∧ (c'.state = .used ∨ c'.state = .tooslow))

/-! ## The sequential invariant and the pending-items abstraction -/

/-- The not-yet-dequeued window of one segment: the USED prefix
`cells[0 .. min(enqueue_index, size))`, minus the already-dequeued
prefix `cells[0 .. dequeue_index)`. -/
def segWindow (sg : queue_segment_t) : List Nat :=
  ((sg.cells.take (min sg.enqueue_index sg.size)).drop sg.dequeue_index).map
    queue_item_t.item

/-- The pending items of the queue, read along the segment chain `ch`
(dequeue segment first). -/
def pendingC (g : QState) (ch : List Nat) : List Nat :=
  (ch.map fun i => ((getSeg g i).map segWindow).getD []).flatten

/-- Per-segment well-formedness in a sequential execution: the cell
array has exactly `size` cells, cells below `min(enqueue_index, size)`
are USED and cells at or above it are still zeroed (in particular no
cell is ever TOOSLOW sequentially). -/
def segWF (sg : queue_segment_t) : Prop :=
  sg.cells.length = sg.size ∧ 1 ≤ sg.size ∧
  (∀ j c, sg.cells[j]? = some c → j < min sg.enqueue_index sg.size →
    c.state = .used) ∧
  (∀ j c, sg.cells[j]? = some c → min sg.enqueue_index sg.size ≤ j →
    c = empty_cell)

/-- The inductive invariant of the sequential embedding, relative to
the explicit segment chain `ch` from the dequeue segment (head) to the
enqueue segment (last). -/
structure InvC (g : QState) (ch : List Nat) : Prop where
  nonempty : ch ≠ []
  head_deq : ch.head? = some g.q.segments.dequeue_segment
  last_enq : ch.getLast? = some g.q.segments.enqueue_segment
  linked : links g ch
  sorted : ch.Chain' (· < ·)
  bounded : ∀ i ∈ ch, i < g.heap.length
  wf : ∀ i ∈ ch, ∀ sg, getSeg g i = some sg → segWF sg
  tail_deq_zero : ∀ i ∈ ch.tail, ∀ sg, getSeg g i = some sg →
    sg.dequeue_index = 0
  head_deq_le : ∀ sg, getSeg g g.q.segments.dequeue_segment = some sg →
    sg.dequeue_index ≤ min sg.enqueue_index sg.size
  mid_full : ∀ i ∈ ch.dropLast, ∀ sg, getSeg g i = some sg →
    sg.size ≤ sg.enqueue_index
  last_le : ∀ sg, getSeg g g.q.segments.enqueue_segment = some sg →
    sg.enqueue_index ≤ sg.size
  help_zero : g.q.help_needed = 0
  default_pos : 1 ≤ g.q.default_segment_size
  len_eq : g.q.len = ((pendingC g ch).length : Int)

/-! ## Concrete configurations used by witnesses and counterexamples -/

/-- The two-cell queue produced by `queue_init_size` with
`size_log = 1` (range constants `1 ≤ 1 ≤ 3`, default `2`). -/
def qDemoInit : QState :=
  ⟨⟨⟨0, 0⟩, 2, 0, 0⟩, [queue_new_segment 2]⟩

/-- Six threads: three enqueuers of items 1, 2, 3 and three
dequeuers. -/
def demoThreads : List thread_conf :=
  [enqThread 1, enqThread 2, enqThread 3, deqThread, deqThread, deqThread]

/-- A schedule exhibiting the transient chain-order violation: both
enqueues of 1 and 2 complete; the enqueue of 3 fills a fresh segment
and links it via `segment->next` but stalls before swinging the
enqueue-segment pointer; two dequeues drain the first segment; the
third dequeue follows `next` and swings the dequeue-segment pointer
past the still-unswung enqueue-segment pointer. -/
def demoSched : List Nat :=
  [0, 0, 0, 0, 1, 1, 1, 1, 2, 2, 2, 2, 2, 2,
   3, 3, 3, 3, 3, 3, 4, 4, 4, 4, 4, 4, 5, 5, 5, 5, 5]

/-! ## hatrack_common.c: the view comparator -/

/-- Conversion of an integer to the C `int` (32-bit, two's complement)
value it converts to, i.e. reduction into `[-2^31, 2^31)` modulo
`2^32`. -/
def toCInt32 (n : Int) : Int :=
  (n + 2 ^ 31) % 2 ^ 32 - 2 ^ 31

/-- `hatrack_quicksort_cmp` (hatrack_common.c lines 29-39):
`return item1->sort_epoch - item2->sort_epoch;` where `sort_epoch` is
the 64-bit epoch stored in a view item and the function's return type
is the 32-bit C `int`.  The 64-bit subtraction is converted (with
two's-complement wrap) to 32 bits; since `2^32` divides `2^64` the
composition collapses to a single 32-bit reduction of the difference. -/
def hatrack_quicksort_cmp (sort_epoch1 sort_epoch2 : Int) : Int :=
  toCInt32 (sort_epoch1 - sort_epoch2)

end Hatrack

namespace Hatrack

/-! ## Theorems: mmm.h claims -/

/-- C2.  Whenever `mmm_start_linearized_op` returns, the epoch `e` it
returns equals the caller's published reservation, and equals the value
of the global epoch counter at the re-read (load number `k`) performed
after that reservation was published: the loop exits only when the
re-read epoch equals the published reservation. -/
theorem mmm_start_linearized_op_stable (oracle : Nat → Nat) (fuel : Nat)
    (e reservation k : Nat)
    (hret : mmm_start_linearized_op oracle fuel = some (e, reservation, k)) :
    reservation = e ∧ oracle k = e := by
  have main : ∀ fuel k0 re e r k,
      mmm_linearize_loop oracle fuel k0 re = some (e, r, k) →
      r = e ∧ oracle k = e := by
    intro fuel
    induction fuel with
    | zero => intro k0 re e r k h; simp [mmm_linearize_loop] at h
    | succ n ih =>
      intro k0 re e r k h
      simp only [mmm_linearize_loop] at h
      by_cases hne : oracle k0 ≠ re
      · rw [if_pos hne] at h
        exact ih (k0 + 1) (oracle k0) e r k h
      · rw [if_neg hne] at h
        push_neg at hne
        have hinj := Option.some.inj h
        have h1 : oracle k0 = e := congrArg Prod.fst hinj
        have h2 : re = r := congrArg (fun x => x.2.1) hinj
        have h3 : k0 = k := congrArg (fun x => x.2.2) hinj
        subst h3
        refine ⟨?_, h1⟩
        omega
  exact main fuel 1 (oracle 0) e reservation k hret

/-- Witness for C2 at a constant epoch oracle: the loop returns at once
with epoch 5 published and re-read. -/
theorem mmm_start_linearized_op_stable_witness :
    (5 : Nat) = 5 ∧ (fun _ : Nat => (5 : Nat)) 1 = 5 :=
  mmm_start_linearized_op_stable (fun _ => 5) 3 5 5 1 (by decide)

/-- C3.  `mmm_commit_write` increases the global epoch counter by
exactly 1, stamps `write_epoch` with the new epoch exactly when it was
`0` at the CAS, and leaves a nonzero `write_epoch` unchanged. -/
theorem mmm_commit_write_spec (epoch : Nat) (h : mmm_header) :
    (mmm_commit_write epoch h).1 = epoch + 1 ∧
    (h.write_epoch = 0 →
      (mmm_commit_write epoch h).2 = { h with write_epoch := epoch + 1 }) ∧
    (h.write_epoch ≠ 0 → (mmm_commit_write epoch h).2 = h) := by
  refine ⟨rfl, ?_, ?_⟩
  · intro h0
    simp [mmm_commit_write, h0]
  · intro h0
    simp [mmm_commit_write, h0]

/-- Witness for C3 at a concrete uncommitted header and a concrete
committed header. -/
theorem mmm_commit_write_spec_witness :
    (mmm_commit_write 7 ⟨3, 0, 0⟩).1 = 8 ∧
    (mmm_commit_write 7 ⟨3, 0, 0⟩).2 = ⟨3, 8, 0⟩ := by
  refine ⟨(mmm_commit_write_spec 7 ⟨3, 0, 0⟩).1, ?_⟩
  exact (mmm_commit_write_spec 7 ⟨3, 0, 0⟩).2.1 rfl

/-- C8.  `mmm_help_commit` modifies nothing (neither the record nor the
global epoch counter) when the pointer is null or the record's
`write_epoch` is already nonzero; it advances the epoch and stamps the
record only when `write_epoch` is `0`.  Consequently running it twice
from any starting state has exactly the effect of running it once. -/
theorem mmm_help_commit_idempotent (epoch : Nat) (p : Option mmm_header) :
    ((p = none ∨ ∃ h, p = some h ∧ h.write_epoch ≠ 0) →
      mmm_help_commit epoch p = (epoch, p)) ∧
    ((∃ h, p = some h ∧ h.write_epoch = 0) →
      mmm_help_commit epoch p =
        (epoch + 1, (p.map fun h => { h with write_epoch := epoch + 1 }))) ∧
    mmm_help_commit (mmm_help_commit epoch p).1 (mmm_help_commit epoch p).2 =
      mmm_help_commit epoch p := by
  refine ⟨?_, ?_, ?_⟩
  · rintro (rfl | ⟨h, rfl, hne⟩)
    · rfl
    · simp [mmm_help_commit, hne]
  · rintro ⟨h, rfl, h0⟩
    simp [mmm_help_commit, h0]
  · match p with
    | none => rfl
    | some h =>
      by_cases h0 : h.write_epoch = 0
      · simp [mmm_help_commit, h0]
      · simp [mmm_help_commit, h0]

/-- Witness for C8: a null pointer is untouched, an uncommitted record
gets stamped, and a second run is a no-op. -/
theorem mmm_help_commit_idempotent_witness :
    mmm_help_commit 4 (none : Option mmm_header) = (4, none) ∧
    mmm_help_commit 4 (some ⟨2, 0, 0⟩) = (5, some ⟨2, 5, 0⟩) ∧
    mmm_help_commit 5 (some ⟨2, 5, 0⟩) = (5, some ⟨2, 5, 0⟩) := by
  refine ⟨(mmm_help_commit_idempotent 4 none).1 (Or.inl rfl), ?_, ?_⟩
  · exact (mmm_help_commit_idempotent 4 (some ⟨2, 0, 0⟩)).2.1 ⟨⟨2, 0, 0⟩, rfl, rfl⟩
  · exact (mmm_help_commit_idempotent 5 (some ⟨2, 5, 0⟩)).1
      (Or.inr ⟨⟨2, 5, 0⟩, rfl, by decide⟩)

/-- C10.  `mmm_get_create_epoch` returns `create_epoch` when that field
is nonzero and falls back to `write_epoch` when `create_epoch` is zero
(a record whose create epoch was never explicitly set sorts by its
commit epoch). -/
theorem mmm_get_create_epoch_spec (h : mmm_header) :
    (h.create_epoch ≠ 0 → mmm_get_create_epoch h = h.create_epoch) ∧
    (h.create_epoch = 0 → mmm_get_create_epoch h = h.write_epoch) := by
  constructor
  · intro hne; simp [mmm_get_create_epoch, hne]
  · intro h0; simp [mmm_get_create_epoch, h0]

/-- Witness for C10 on a record with an explicit create epoch and on a
first-insertion record. -/
theorem mmm_get_create_epoch_spec_witness :
    mmm_get_create_epoch ⟨9, 12, 0⟩ = 9 ∧
    mmm_get_create_epoch ⟨0, 12, 0⟩ = 12 := by
  constructor
  · exact (mmm_get_create_epoch_spec ⟨9, 12, 0⟩).1 (by decide)
  · exact (mmm_get_create_epoch_spec ⟨0, 12, 0⟩).2 rfl

/-! ## Cell monotonicity of the interleaved machine (C6) -/

theorem getCellQ_q_update (g : QState) (q' : queue_t) (a b : Nat) :
    getCellQ ⟨q', g.heap⟩ a b = getCellQ g a b := rfl

theorem cellsMono_of_eq {g g' : QState}
    (h : ∀ a b, getCellQ g' a b = getCellQ g a b) : CellsMono g g' := by
  intro a b c hc
  refine ⟨fun _ => by rw [h]; exact hc, fun c' hc' hne => ?_⟩
  rw [h, hc] at hc'
  exact absurd (Option.some.inj hc').symm hne

theorem cellsMono_rfl (g : QState) : CellsMono g g :=
  cellsMono_of_eq fun _ _ => rfl

theorem getCellQ_updSeg (f : queue_segment_t → queue_segment_t)
    (hf : ∀ sg, (f sg).cells = sg.cells) (g : QState) (i a b : Nat) :
    getCellQ (updSeg g i f) a b = getCellQ g a b := by
  unfold updSeg
  cases hh : g.heap[i]? with
  | none => rfl
  | some sg =>
    unfold getCellQ getSeg
    by_cases hia : i = a
    · subst hia
      have hlt : i < g.heap.length := (List.getElem?_eq_some.mp hh).1
      rw [List.getElem?_set_self hlt, hh]
      simp [hf sg]
    · rw [List.getElem?_set_ne hia]

theorem cellsMono_updSeg (f : queue_segment_t → queue_segment_t)
    (hf : ∀ sg, (f sg).cells = sg.cells) (g : QState) (i : Nat) :
    CellsMono g (updSeg g i f) :=
  cellsMono_of_eq fun a b => getCellQ_updSeg f hf g i a b

theorem cellsMono_append (g : QState) (l : List queue_segment_t) :
    CellsMono g { g with heap := g.heap ++ l } := by
  intro a b c hc
  have ha : a < g.heap.length := by
    rcases hh : g.heap[a]? with _ | sg
    · rw [getCellQ, getSeg, hh] at hc; exact absurd hc (by simp)
    · exact (List.getElem?_eq_some.mp hh).1
  have heq : getCellQ { g with heap := g.heap ++ l } a b = getCellQ g a b := by
    unfold getCellQ getSeg
    rw [List.getElem?_append_left ha]
  refine ⟨fun _ => by rw [heq]; exact hc, fun c' hc' hne => ?_⟩
  rw [heq, hc] at hc'
  exact absurd (Option.some.inj hc').symm hne

theorem getCellQ_setCellQ_same {g : QState} {i j : Nat} {c0 : queue_item_t}
    (h : getCellQ g i j = some c0) (v : queue_item_t) :
    getCellQ (setCellQ g i j v) i j = some v := by
  rcases hh : g.heap[i]? with _ | sg
  · rw [getCellQ, getSeg, hh] at h; exact absurd h (by simp)
  · have hi : i < g.heap.length := (List.getElem?_eq_some.mp hh).1
    have hsg : sg.cells[j]? = some c0 := by
      rw [getCellQ, getSeg, hh] at h; simpa using h
    have hj : j < sg.cells.length := (List.getElem?_eq_some.mp hsg).1
    unfold setCellQ updSeg
    rw [hh]
    unfold getCellQ getSeg
    simp only [List.getElem?_set_self hi, Option.some_bind]
    exact List.getElem?_set_self (by simpa using hj)

theorem getCellQ_setCellQ_other {g : QState} {i j a b : Nat}
    (h : ¬(a = i ∧ b = j)) (v : queue_item_t) :
    getCellQ (setCellQ g i j v) a b = getCellQ g a b := by
  unfold getCellQ getSeg setCellQ updSeg
  rcases hh : g.heap[i]? with _ | sg
  · rfl
  · by_cases hia : i = a
    · subst hia
      have hbj : b ≠ j := fun hbj => h ⟨rfl, hbj⟩
      have hi : i < g.heap.length := (List.getElem?_eq_some.mp hh).1
      rw [List.getElem?_set_self hi, hh]
      simp only [Option.some_bind]
      exact List.getElem?_set_ne (fun hj => hbj hj.symm)
    · rw [List.getElem?_set_ne hia]

theorem cellsMono_setCellQ {g : QState} {i j : Nat} {v : queue_item_t}
    (hg : getCellQ g i j = some empty_cell)
    (hv : v.state = .used ∨ v.state = .tooslow) :
    CellsMono g (setCellQ g i j v) := by
  intro a b c hc
  by_cases hab : a = i ∧ b = j
  · obtain ⟨rfl, rfl⟩ := hab
    have hce : c = empty_cell := Option.some.inj (hc.symm.trans hg)
    subst hce
    refine ⟨fun hne => absurd rfl hne, fun c' hc' _ => ?_⟩
    have hcv : c' = v :=
      Option.some.inj (hc'.symm.trans (getCellQ_setCellQ_same hg v))
    subst hcv
    exact ⟨rfl, hv⟩
  · have heq : getCellQ (setCellQ g i j v) a b = getCellQ g a b :=
      getCellQ_setCellQ_other hab v
    refine ⟨fun _ => by rw [heq]; exact hc, fun c' hc' hne => ?_⟩
    rw [heq, hc] at hc'
    exact absurd (Option.some.inj hc').symm hne

/-- Every single shared-memory step of an in-flight enqueue or dequeue
preserves non-EMPTY cells and only ever writes USED or TOOSLOW over
EMPTY. -/
theorem stepThread_cellsMono (g : QState) (t : thread_conf) :
    CellsMono g (stepThread g t).1 := by
  match t with
  | .finished f r => exact cellsMono_rfl g
  | .deq t pc =>
    match pc with
    | .readSegs => exact cellsMono_rfl g
    | .loadIdx => exact cellsMono_rfl g
    | .loadHead =>
      simp only [stepThread, deqStep]
      split
      · exact cellsMono_rfl g
      · split
        · exact cellsMono_rfl g
        · exact cellsMono_rfl g
    | .faa =>
      simp only [stepThread, deqStep]
      split
      · exact cellsMono_updSeg
          (fun sg => { sg with dequeue_index := sg.dequeue_index + 1 })
          (fun _ => rfl) g t.seg
      · exact cellsMono_updSeg
          (fun sg => { sg with dequeue_index := sg.dequeue_index + 1 })
          (fun _ => rfl) g t.seg
    | .casCell =>
      simp only [stepThread, deqStep]
      split
      · next c hcell =>
        split
        · next hce =>
          subst hce
          exact cellsMono_setCellQ hcell (Or.inr rfl)
        · exact cellsMono_rfl g
      · exact cellsMono_rfl g
    | .lenDec => exact cellsMono_of_eq fun a b => rfl
    | .loadNext =>
      simp only [stepThread, deqStep]
      split
      · exact cellsMono_rfl g
      · exact cellsMono_rfl g
    | .casSegs =>
      simp only [stepThread, deqStep]
      split
      · exact cellsMono_of_eq fun a b => rfl
      · split
        · exact cellsMono_rfl g
        · exact cellsMono_rfl g
  | .enq t pc =>
    match pc with
    | .readSegs => exact cellsMono_rfl g
    | .faa =>
      simp only [stepThread, enqStep]
      split
      · exact cellsMono_updSeg
          (fun sg => { sg with enqueue_index := sg.enqueue_index + t.step })
          (fun _ => rfl) g t.seg
      · split
        · exact cellsMono_updSeg
            (fun sg => { sg with enqueue_index := sg.enqueue_index + t.step })
            (fun _ => rfl) g t.seg
        · exact cellsMono_updSeg
            (fun sg => { sg with enqueue_index := sg.enqueue_index + t.step })
            (fun _ => rfl) g t.seg
    | .casCell =>
      simp only [stepThread, enqStep]
      split
      · next c hcell =>
        split
        · next hce =>
          subst hce
          exact cellsMono_setCellQ hcell (Or.inl rfl)
        · exact cellsMono_rfl g
      · exact cellsMono_rfl g
    | .helpInc => exact cellsMono_of_eq fun a b => rfl
    | .reloadA =>
      simp only [stepThread, enqStep]
      split
      · exact cellsMono_rfl g
      · exact cellsMono_rfl g
    | .reloadB =>
      simp only [stepThread, enqStep]
      split
      · exact cellsMono_rfl g
      · exact cellsMono_rfl g
    | .readHelp => exact cellsMono_rfl g
    | .allocSeg =>
      simp only [stepThread, enqStep]
      exact cellsMono_append g _
    | .casNext =>
      simp only [stepThread, enqStep]
      split
      · exact cellsMono_updSeg
          (fun sg => { sg with next := some t.newSeg })
          (fun _ => rfl) g t.seg
      · exact cellsMono_rfl g
    | .casSegs =>
      simp only [stepThread, enqStep]
      split
      · split
        · exact cellsMono_of_eq fun a b => rfl
        · exact cellsMono_of_eq fun a b => rfl
      · split
        · split
          · exact cellsMono_rfl g
          · exact cellsMono_rfl g
        · exact cellsMono_rfl g
    | .helpDec => exact cellsMono_of_eq fun a b => rfl
    | .lenInc => exact cellsMono_of_eq fun a b => rfl

/-- C6.  Queue cell monotonicity: under any interleaving, a scheduler
step of any thread leaves every non-EMPTY cell (item and state)
untouched, and any cell it does change was EMPTY and becomes USED (the
enqueue CAS, or the cell-0 initialization of a fresh segment performed
at its allocation, before publication) or TOOSLOW (the dequeue CAS). -/
theorem queue_cell_monotonic (cfg : MConfig) (i a b : Nat)
    (c : queue_item_t) (hc : getCellQ cfg.g a b = some c) :
    (c.state ≠ .empty → getCellQ (stepConfig cfg i).g a b = some c) ∧
    (∀ c', getCellQ (stepConfig cfg i).g a b = some c' → c' ≠ c →
      c.state = .empty ∧ (c'.state = .used ∨ c'.state = .tooslow)) := by
  unfold stepConfig
  cases ht : cfg.threads[i]? with
  | none => exact (cellsMono_rfl cfg.g) a b c hc
  | some t => exact (stepThread_cellsMono cfg.g t) a b c hc

set_option maxRecDepth 8000 in
/-- Witness for C6: in the demo configuration after two complete
enqueues, cell 0 of segment 0 holds `(1, USED)` and survives a step of
the in-flight third enqueuer. -/
theorem queue_cell_monotonic_witness :
    getCellQ (runSched ⟨qDemoInit, demoThreads⟩ [0, 0, 0, 0]).g 0 0 =
      some ⟨1, .used⟩ ∧
    getCellQ (stepConfig (runSched ⟨qDemoInit, demoThreads⟩ [0, 0, 0, 0]) 1).g 0 0 =
      some ⟨1, .used⟩ := by
  refine ⟨by decide, ?_⟩
  exact (queue_cell_monotonic (runSched ⟨qDemoInit, demoThreads⟩ [0, 0, 0, 0])
    1 0 0 ⟨1, .used⟩ (by decide)).1 (by decide)

/-! ## State-access helper lemmas for the sequential proofs -/

theorem getSeg_q_update (g : QState) (q' : queue_t) (a : Nat) :
    getSeg ⟨q', g.heap⟩ a = getSeg g a := rfl

theorem getSeg_adjLen (g : QState) (d : Int) (a : Nat) :
    getSeg (adjLen g d) a = getSeg g a := rfl

theorem getSeg_adjHelp (g : QState) (d : Int) (a : Nat) :
    getSeg (adjHelp g d) a = getSeg g a := rfl

theorem getSeg_lt {g : QState} {a : Nat} {sg : queue_segment_t}
    (h : getSeg g a = some sg) : a < g.heap.length :=
  (List.getElem?_eq_some.mp h).1

theorem getSeg_updSeg_same (f : queue_segment_t → queue_segment_t)
    {g : QState} {i : Nat} {sg : queue_segment_t} (h : getSeg g i = some sg) :
    getSeg (updSeg g i f) i = some (f sg) := by
  unfold updSeg
  rw [show g.heap[i]? = some sg from h]
  unfold getSeg
  exact List.getElem?_set_self (getSeg_lt h)

theorem getSeg_updSeg_ne (f : queue_segment_t → queue_segment_t)
    (g : QState) {i a : Nat} (h : a ≠ i) :
    getSeg (updSeg g i f) a = getSeg g a := by
  unfold updSeg
  cases hh : g.heap[i]? with
  | none => rfl
  | some sg => exact List.getElem?_set_ne (fun he => h he.symm)

theorem q_updSeg (f : queue_segment_t → queue_segment_t) (g : QState)
    (i : Nat) : (updSeg g i f).q = g.q := by
  unfold updSeg
  cases g.heap[i]? <;> rfl

theorem heapLen_updSeg (f : queue_segment_t → queue_segment_t) (g : QState)
    (i : Nat) : (updSeg g i f).heap.length = g.heap.length := by
  unfold updSeg
  cases g.heap[i]? with
  | none => rfl
  | some sg => exact List.length_set g.heap i (f sg)

theorem getSeg_append_lt {g : QState} (l : List queue_segment_t) {a : Nat}
    (h : a < g.heap.length) :
    getSeg { g with heap := g.heap ++ l } a = getSeg g a :=
  List.getElem?_append_left h

theorem getSeg_append_self (g : QState) (sg : queue_segment_t) :
    getSeg { g with heap := g.heap ++ [sg] } g.heap.length = some sg := by
  unfold getSeg
  simp

theorem getSeg_none_of_ge {g : QState} {a : Nat}
    (h : g.heap.length ≤ a) : getSeg g a = none :=
  List.getElem?_eq_none_iff.mpr h

theorem nextOf_eq_of_getSeg {g g' : QState} {a : Nat}
    (h : getSeg g' a = getSeg g a) : nextOf g' a = nextOf g a := by
  unfold nextOf; rw [h]

theorem links_congr {g g' : QState} :
    ∀ ch : List Nat, (∀ i ∈ ch, nextOf g' i = nextOf g i) →
      links g ch → links g' ch
  | [], _, _ => trivial
  | [i], h, hl => by
    have := h i (by simp)
    unfold links at hl ⊢
    rw [this]; exact hl
  | i :: j :: rest, h, hl => by
    refine ⟨?_, links_congr (j :: rest) (fun a ha => h a (by simp [ha])) hl.2⟩
    rw [h i (by simp)]; exact hl.1

theorem links_snoc {g g' : QState} :
    ∀ ch : List Nat, ∀ {e n : Nat}, links g ch → ch.getLast? = some e →
      e ∉ ch.dropLast →
      (∀ i ∈ ch, i ≠ e → nextOf g' i = nextOf g i) →
      nextOf g' e = some n → nextOf g' n = none →
      links g' (ch ++ [n])
  | [], _, _, hl, hlast, hnd, hsame => by simp at hlast
  | [i], e, n, hl, hlast, hnd, hsame => by
    intro he hn
    have hie : i = e := Option.some.inj hlast
    subst hie
    exact ⟨he, hn⟩
  | i :: j :: rest, e, n, hl, hlast, hnd, hsame => by
    intro he hn
    have hd : (i :: j :: rest).dropLast = i :: (j :: rest).dropLast :=
      List.dropLast_cons_of_ne_nil (by simp)
    have hie : i ≠ e := by
      intro hie
      exact hnd (by rw [hd, ← hie]; exact List.mem_cons_self i _)
    refine ⟨by rw [hsame i (by simp) hie]; exact hl.1, ?_⟩
    exact links_snoc (j :: rest) hl.2 (by simpa using hlast)
      (fun hmem => hnd (by rw [hd]; exact List.mem_cons_of_mem i hmem))
      (fun a ha hae => hsame a (by simp [ha]) hae) he hn

theorem pendingC_congr {g g' : QState} {ch : List Nat}
    (h : ∀ i ∈ ch, getSeg g' i = getSeg g i) :
    pendingC g' ch = pendingC g ch := by
  unfold pendingC
  congr 1
  exact List.map_congr_left fun i hi => by rw [h i hi]

theorem pendingC_append (g : QState) (l1 l2 : List Nat) :
    pendingC g (l1 ++ l2) = pendingC g l1 ++ pendingC g l2 := by
  unfold pendingC
  rw [List.map_append, List.flatten_append]

theorem pendingC_singleton (g : QState) (i : Nat) :
    pendingC g [i] = ((getSeg g i).map segWindow).getD [] := by
  unfold pendingC
  simp

theorem pendingC_q_update (g : QState) (q' : queue_t) (ch : List Nat) :
    pendingC ⟨q', g.heap⟩ ch = pendingC g ch := rfl

theorem take_set_self (l : List queue_item_t) (n : Nat) (v : queue_item_t) :
    (l.set n v).take n = l.take n := by
  induction l generalizing n with
  | nil => simp
  | cons a t ih =>
    cases n with
    | zero => simp
    | succ m => simp [ih]

theorem getCellQ_of_getSeg {g : QState} {i : Nat} {sg : queue_segment_t}
    (h : getSeg g i = some sg) (j : Nat) : getCellQ g i j = sg.cells[j]? := by
  unfold getCellQ
  rw [h, Option.some_bind]

theorem getLast_not_mem_dropLast {ch : List Nat} {e : Nat}
    (hnd : ch.Nodup) (hlast : ch.getLast? = some e) : e ∉ ch.dropLast := by
  have hne : ch ≠ [] := by
    intro h; subst h; simp at hlast
  have hdecomp : ch.dropLast ++ [ch.getLast hne] = ch :=
    List.dropLast_concat_getLast hne
  have hee : ch.getLast hne = e := by
    rw [List.getLast?_eq_getLast ch hne] at hlast
    exact Option.some.inj hlast
  rw [← hdecomp] at hnd
  have := List.disjoint_of_nodup_append hnd
  intro hmem
  exact this hmem (by rw [hee]; exact List.mem_singleton.mpr rfl)

theorem chain_decomp {ch : List Nat} {e : Nat}
    (hlast : ch.getLast? = some e) : ch = ch.dropLast ++ [e] := by
  have hne : ch ≠ [] := by
    intro h; subst h; simp at hlast
  have hdecomp : ch.dropLast ++ [ch.getLast hne] = ch :=
    List.dropLast_concat_getLast hne
  have hee : ch.getLast hne = e := by
    rw [List.getLast?_eq_getLast ch hne] at hlast
    exact Option.some.inj hlast
  rw [← hee]
  exact hdecomp.symm

/-- The window of the enqueue segment grows by exactly the installed
item when a cell is claimed by an in-range enqueue. -/
theorem segWindow_install {sg : queue_segment_t} (item : Nat)
    (hwf : segWF sg) (hlt : sg.enqueue_index < sg.size)
    (hd : sg.dequeue_index ≤ sg.enqueue_index) :
    segWindow { sg with
        enqueue_index := sg.enqueue_index + 1
        cells := sg.cells.set sg.enqueue_index ⟨item, .used⟩ } =
      segWindow sg ++ [item] := by
  obtain ⟨hlen, hpos, hused, hempty⟩ := hwf
  have hminA : min (sg.enqueue_index + 1) sg.size = sg.enqueue_index + 1 :=
    Nat.min_eq_left hlt
  have hmin : min sg.enqueue_index sg.size = sg.enqueue_index :=
    Nat.min_eq_left (Nat.le_of_lt hlt)
  have hel : sg.enqueue_index < sg.cells.length := by rw [hlen]; exact hlt
  unfold segWindow
  simp only [hminA, hmin]
  rw [List.take_succ, take_set_self,
    List.getElem?_set_self hel]
  have htlen : sg.dequeue_index ≤ (sg.cells.take sg.enqueue_index).length := by
    rw [List.length_take]
    omega
  rw [List.drop_append_of_le_length htlen, List.map_append]
  rfl

theorem enqueue_run_notfull {g : QState} {sg : queue_segment_t}
    (hsg : getSeg g g.q.segments.enqueue_segment = some sg)
    (hlt : sg.enqueue_index < sg.size)
    (hcellg : sg.cells[sg.enqueue_index]? = some empty_cell)
    (item : Nat) :
    queue_enqueue g item 2 =
      some (adjLen (setCellQ
        (updSeg g g.q.segments.enqueue_segment
          fun s => { s with enqueue_index := s.enqueue_index + 1 })
        g.q.segments.enqueue_segment sg.enqueue_index ⟨item, .used⟩) 1) := by
  have henqIdx : enqIdxOf g g.q.segments.enqueue_segment = sg.enqueue_index := by
    unfold enqIdxOf; rw [hsg]; rfl
  have hsz : segSizeOf g g.q.segments.enqueue_segment = sg.size := by
    unfold segSizeOf; rw [hsg]; rfl
  have hg1 : getSeg (updSeg g g.q.segments.enqueue_segment
      fun s => { s with enqueue_index := s.enqueue_index + 1 })
      g.q.segments.enqueue_segment =
      some { sg with enqueue_index := sg.enqueue_index + 1 } :=
    getSeg_updSeg_same _ hsg
  have hcell : getCellQ (updSeg g g.q.segments.enqueue_segment
      fun s => { s with enqueue_index := s.enqueue_index + 1 })
      g.q.segments.enqueue_segment sg.enqueue_index = some empty_cell := by
    rw [getCellQ_of_getSeg hg1]
    exact hcellg
  rw [queue_enqueue]
  rw [show (2 : Nat) = 1 + 1 from rfl, queue_enqueue_loop]
  simp only [faaEnqIdx, henqIdx, hsz]
  rw [if_pos hlt, hcell]
  simp [setCellQ]

theorem getCellQ_eq_of_getSeg_eq {g g' : QState} {a : Nat}
    (h : getSeg g' a = getSeg g a) (b : Nat) :
    getCellQ g' a b = getCellQ g a b := by
  unfold getCellQ
  rw [h]

theorem links_getLast_none {g : QState} :
    ∀ ch : List Nat, ∀ {e : Nat}, links g ch → ch.getLast? = some e →
      nextOf g e = none
  | [], _, _, hlast => by simp at hlast
  | [i], e, hl, hlast => by
    have : i = e := Option.some.inj hlast
    subst this
    exact hl
  | i :: j :: rest, e, hl, hlast =>
    links_getLast_none (j :: rest) hl.2 (by simpa using hlast)

/-- Installing an item into the free cell at `enqueue_index` preserves
per-segment well-formedness. -/
theorem segWF_install {sg : queue_segment_t} (item : Nat)
    (hwf : segWF sg) (hlt : sg.enqueue_index < sg.size) :
    segWF { sg with
        enqueue_index := sg.enqueue_index + 1
        cells := sg.cells.set sg.enqueue_index ⟨item, .used⟩ } := by
  obtain ⟨hlen, hpos, hused, hempty⟩ := hwf
  have hminA : min (sg.enqueue_index + 1) sg.size = sg.enqueue_index + 1 :=
    Nat.min_eq_left hlt
  have hmin : min sg.enqueue_index sg.size = sg.enqueue_index :=
    Nat.min_eq_left (Nat.le_of_lt hlt)
  refine ⟨by simpa using hlen, hpos, ?_, ?_⟩
  · intro j c hc hj
    dsimp only at hc hj
    rw [hminA] at hj
    by_cases hje : j = sg.enqueue_index
    · subst hje
      rw [List.getElem?_set_self (by omega)] at hc
      obtain rfl := Option.some.inj hc
      rfl
    · rw [List.getElem?_set_ne (fun h => hje h.symm)] at hc
      exact hused j c hc (by omega)
  · intro j c hc hj
    dsimp only at hc hj
    rw [hminA] at hj
    rw [List.getElem?_set_ne (by omega)] at hc
    exact hempty j c hc (by omega)

/-- Overshooting `enqueue_index` past a full segment (and setting its
`next` pointer) preserves per-segment well-formedness. -/
theorem segWF_bump {sg : queue_segment_t} (n : Option Nat)
    (hwf : segWF sg) (hge : sg.size ≤ sg.enqueue_index) :
    segWF { sg with enqueue_index := sg.enqueue_index + 1, next := n } := by
  obtain ⟨hlen, hpos, hused, hempty⟩ := hwf
  have hminA : min (sg.enqueue_index + 1) sg.size = sg.size := by omega
  have hmin : min sg.enqueue_index sg.size = sg.size := by omega
  refine ⟨hlen, hpos, ?_, ?_⟩
  · intro j c hc hj
    dsimp only at hc hj
    rw [hminA] at hj
    exact hused j c hc (by omega)
  · intro j c hc hj
    dsimp only at hc hj
    rw [hminA] at hj
    exact hempty j c hc (by omega)

/-- A freshly allocated successor segment (our item pre-stored in cell
0, `enqueue_index = 1`) is well-formed. -/
theorem segWF_fresh (item sizeD : Nat) (hD : 1 ≤ sizeD) :
    segWF ⟨sizeD, 1, 0, none,
      ⟨item, .used⟩ :: List.replicate (sizeD - 1) empty_cell⟩ := by
  refine ⟨?_, hD, ?_, ?_⟩
  · show (⟨item, .used⟩ :: List.replicate (sizeD - 1) empty_cell :
      List queue_item_t).length = sizeD
    simp only [List.length_cons, List.length_replicate]
    omega
  · intro j c hc hj
    dsimp only at hc hj
    rw [show min 1 sizeD = 1 by omega] at hj
    have hj0 : j = 0 := by omega
    subst hj0
    simp only [List.getElem?_cons_zero] at hc
    obtain rfl := Option.some.inj hc
    rfl
  · intro j c hc hj
    dsimp only at hc hj
    rw [show min 1 sizeD = 1 by omega] at hj
    match j, hj with
    | j + 1, _ =>
      simp only [List.getElem?_cons_succ] at hc
      exact List.eq_of_mem_replicate (List.getElem?_mem hc)

/-- Overshooting `enqueue_index` on a full segment does not change its
pending window. -/
theorem segWindow_bump {sg : queue_segment_t} (n : Option Nat)
    (hge : sg.size ≤ sg.enqueue_index) :
    segWindow { sg with enqueue_index := sg.enqueue_index + 1, next := n } =
      segWindow sg := by
  unfold segWindow
  dsimp only
  rw [show min (sg.enqueue_index + 1) sg.size = sg.size by omega,
    show min sg.enqueue_index sg.size = sg.size by omega]

/-- The pending window of a freshly allocated successor segment is its
single pre-stored item. -/
theorem segWindow_fresh (item sizeD : Nat) (hD : 1 ≤ sizeD) :
    segWindow (⟨sizeD, 1, 0, none,
      ⟨item, .used⟩ :: List.replicate (sizeD - 1) empty_cell⟩ :
        queue_segment_t) = [item] := by
  unfold segWindow
  dsimp only
  rw [show min 1 sizeD = 1 by omega]
  simp

theorem head?_append_left {l l' : List Nat} (h : l ≠ []) :
    (l ++ l').head? = l.head? := by
  cases l with
  | nil => exact absurd rfl h
  | cons a t => rfl

theorem tail_append_left {l l' : List Nat} (h : l ≠ []) :
    (l ++ l').tail = l.tail ++ l' := by
  cases l with
  | nil => exact absurd rfl h
  | cons a t => rfl

theorem adjLen_q_len (g : QState) (d : Int) : (adjLen g d).q.len = g.q.len + d := rfl

theorem adjLen_q_segments (g : QState) (d : Int) :
    (adjLen g d).q.segments = g.q.segments := rfl

theorem adjLen_q_help (g : QState) (d : Int) :
    (adjLen g d).q.help_needed = g.q.help_needed := rfl

theorem adjLen_q_default (g : QState) (d : Int) :
    (adjLen g d).q.default_segment_size = g.q.default_segment_size := rfl

theorem adjLen_heap (g : QState) (d : Int) : (adjLen g d).heap = g.heap := rfl

theorem q_setCellQ (g : QState) (i j : Nat) (v : queue_item_t) :
    (setCellQ g i j v).q = g.q := by
  unfold setCellQ
  exact q_updSeg _ _ _

theorem heapLen_setCellQ (g : QState) (i j : Nat) (v : queue_item_t) :
    (setCellQ g i j v).heap.length = g.heap.length := by
  unfold setCellQ
  exact heapLen_updSeg _ _ _

theorem queue_enqueue_swing_pos {g : QState} {expected : queue_seg_ptrs_t}
    (seg new_seg : Nat) {fuel : Nat} (h : g.q.segments = expected)
    (hf : 0 < fuel) :
    queue_enqueue_swing g expected seg new_seg fuel =
      { g with q := { g.q with segments := ⟨new_seg, expected.dequeue_segment⟩ } } := by
  cases fuel with
  | zero => omega
  | succ n => rw [queue_enqueue_swing, if_pos h]

theorem enqueue_run_full {g : QState} {sg : queue_segment_t}
    (hsg : getSeg g g.q.segments.enqueue_segment = some sg)
    (hge : ¬ sg.enqueue_index < sg.size)
    (hnext : sg.next = none)
    (hhelp : g.q.help_needed = 0)
    (item : Nat) :
    queue_enqueue g item 2 = some (adjLen
      { updSeg
          { (updSeg g g.q.segments.enqueue_segment
              fun s => { s with enqueue_index := s.enqueue_index + 1 }) with
            heap := (updSeg g g.q.segments.enqueue_segment
              fun s => { s with enqueue_index := s.enqueue_index + 1 }).heap ++
              [⟨g.q.default_segment_size, 1, 0, none,
                ⟨item, .used⟩ ::
                  List.replicate (g.q.default_segment_size - 1) empty_cell⟩] }
          g.q.segments.enqueue_segment
          (fun s => { s with next := some g.heap.length }) with
        q := { g.q with segments :=
          ⟨g.heap.length, g.q.segments.dequeue_segment⟩ } } 1) := by
  have henqIdx : enqIdxOf g g.q.segments.enqueue_segment = sg.enqueue_index := by
    unfold enqIdxOf; rw [hsg]; rfl
  have hsz : segSizeOf g g.q.segments.enqueue_segment = sg.size := by
    unfold segSizeOf; rw [hsg]; rfl
  rw [queue_enqueue]
  rw [show (2 : Nat) = 1 + 1 from rfl, queue_enqueue_loop]
  simp only [faaEnqIdx, henqIdx, hsz]
  rw [if_neg hge]
  rw [if_neg (by simp [QUEUE_HELP_VALUE])]
  simp only [q_updSeg]
  rw [if_neg (by simp)]
  rw [if_neg (by simp [hhelp])]
  rw [queue_enqueue_install]
  have hg1e : getSeg (updSeg g g.q.segments.enqueue_segment
      fun s => { s with enqueue_index := s.enqueue_index + 1 })
      g.q.segments.enqueue_segment =
      some { sg with enqueue_index := sg.enqueue_index + 1 } :=
    getSeg_updSeg_same _ hsg
  have hlt1 : g.q.segments.enqueue_segment <
      (updSeg g g.q.segments.enqueue_segment
        fun s => { s with enqueue_index := s.enqueue_index + 1 }).heap.length :=
    getSeg_lt hg1e
  have hg2e : getSeg
      { (updSeg g g.q.segments.enqueue_segment
          fun s => { s with enqueue_index := s.enqueue_index + 1 }) with
        heap := (updSeg g g.q.segments.enqueue_segment
          fun s => { s with enqueue_index := s.enqueue_index + 1 }).heap ++
          [⟨g.q.default_segment_size, 1, 0, none,
            ⟨item, .used⟩ ::
              List.replicate (g.q.default_segment_size - 1) empty_cell⟩] }
      g.q.segments.enqueue_segment =
      some { sg with enqueue_index := sg.enqueue_index + 1 } := by
    rw [getSeg_append_lt _ hlt1]
    exact hg1e
  have hnext2 : nextOf
      { (updSeg g g.q.segments.enqueue_segment
          fun s => { s with enqueue_index := s.enqueue_index + 1 }) with
        heap := (updSeg g g.q.segments.enqueue_segment
          fun s => { s with enqueue_index := s.enqueue_index + 1 }).heap ++
          [⟨g.q.default_segment_size, 1, 0, none,
            ⟨item, .used⟩ ::
              List.replicate (g.q.default_segment_size - 1) empty_cell⟩] }
      g.q.segments.enqueue_segment = none := by
    unfold nextOf
    rw [hg2e]
    exact hnext
  rw [hnext2]
  have hlen1 : (updSeg g g.q.segments.enqueue_segment
      fun s => { s with enqueue_index := s.enqueue_index + 1 }).heap.length =
      g.heap.length := heapLen_updSeg _ _ _
  dsimp only
  rw [queue_enqueue_swing_pos _ _ (by simp [q_updSeg]) Nat.one_pos]
  simp only [q_updSeg, hlen1]
  simp

theorem enqueue_spec {g : QState} {ch : List Nat} (inv : InvC g ch) (item : Nat) :
    ∃ g', queue_enqueue g item 2 = some g' ∧
      g'.q.len = g.q.len + 1 ∧
      g'.q.segments.dequeue_segment = g.q.segments.dequeue_segment ∧
      (∃ ch', InvC g' ch' ∧ pendingC g' ch' = pendingC g ch ++ [item]) ∧
      (∃ s i, getCellQ g' s i = some ⟨item, .used⟩ ∧
        (getCellQ g s i = none ∨ getCellQ g s i = some empty_cell) ∧
        ∀ s' i' c, ¬(s' = s ∧ i' = i) → getCellQ g s' i' = some c →
          getCellQ g' s' i' = some c) := by
  have heMem : g.q.segments.enqueue_segment ∈ ch :=
    List.mem_of_mem_getLast? (Option.mem_def.mpr inv.last_enq)
  have heLt : g.q.segments.enqueue_segment < g.heap.length := inv.bounded _ heMem
  obtain ⟨sg, hsg⟩ : ∃ sg, getSeg g g.q.segments.enqueue_segment = some sg :=
    ⟨g.heap[g.q.segments.enqueue_segment], List.getElem?_eq_getElem heLt⟩
  obtain ⟨hclen, hszpos, hused, hempty⟩ := inv.wf _ heMem sg hsg
  have hle : sg.enqueue_index ≤ sg.size := inv.last_le sg hsg
  have hnd : ch.Nodup := (List.chain'_iff_pairwise.mp inv.sorted).nodup
  have hnotdrop : g.q.segments.enqueue_segment ∉ ch.dropLast :=
    getLast_not_mem_dropLast hnd inv.last_enq
  have hchdec : ch = ch.dropLast ++ [g.q.segments.enqueue_segment] :=
    chain_decomp inv.last_enq
  have hd : sg.dequeue_index ≤ sg.enqueue_index := by
    rcases hch : ch with _ | ⟨a, t⟩
    · exact absurd hch inv.nonempty
    · rcases t with _ | ⟨b, t2⟩
      · have ha_e : a = g.q.segments.enqueue_segment := by
          have h := inv.last_enq
          rw [hch] at h
          simpa using h
        have ha_d : a = g.q.segments.dequeue_segment := by
          have h := inv.head_deq
          rw [hch] at h
          have h2 : some a = some g.q.segments.dequeue_segment := by simpa using h
          exact Option.some.inj h2
        have h := inv.head_deq_le sg (by rw [← ha_d, ha_e]; exact hsg)
        omega
      · have heTail : g.q.segments.enqueue_segment ∈ ch.tail := by
          rw [hch]
          have hl : (b :: t2).getLast? = some g.q.segments.enqueue_segment := by
            have h := inv.last_enq
            rw [hch] at h
            rw [← h]
            exact List.getLast?_cons_cons.symm
          exact List.mem_of_mem_getLast? (Option.mem_def.mpr hl)
        have h := inv.tail_deq_zero _ heTail sg hsg
        omega
  rcases Nat.lt_or_ge sg.enqueue_index sg.size with hlt | hge
  · -- the enqueue segment has a free cell
    have hcellg : sg.cells[sg.enqueue_index]? = some empty_cell := by
      have h1 : sg.cells[sg.enqueue_index]? = some sg.cells[sg.enqueue_index] :=
        List.getElem?_eq_getElem (by omega)
      have h2 := hempty _ _ h1 (by omega)
      rw [h1, h2]
    set e := g.q.segments.enqueue_segment with he
    set g1 := updSeg g e (fun s => { s with enqueue_index := s.enqueue_index + 1 })
      with hg1
    set sgA : queue_segment_t := { sg with
        enqueue_index := sg.enqueue_index + 1
        cells := sg.cells.set sg.enqueue_index ⟨item, .used⟩ } with hsgA
    set gA := adjLen (setCellQ g1 e sg.enqueue_index ⟨item, .used⟩) 1 with hgA
    have hrun : queue_enqueue g item 2 = some gA := by
      rw [hgA, hg1, he]
      exact enqueue_run_notfull hsg hlt hcellg item
    have hq_set : (setCellQ g1 e sg.enqueue_index ⟨item, .used⟩).q = g.q := by
      rw [q_setCellQ, hg1, q_updSeg]
    have hqA : gA.q.segments = g.q.segments := by
      rw [hgA, adjLen_q_segments, hq_set]
    have hlenA : gA.q.len = g.q.len + 1 := by
      rw [hgA, adjLen_q_len, hq_set]
    have hhelpA : gA.q.help_needed = g.q.help_needed := by
      rw [hgA, adjLen_q_help, hq_set]
    have hdefA : gA.q.default_segment_size = g.q.default_segment_size := by
      rw [hgA, adjLen_q_default, hq_set]
    have hheapA : gA.heap.length = g.heap.length := by
      rw [hgA, adjLen_heap, heapLen_setCellQ, hg1, heapLen_updSeg]
    have hgA_ne : ∀ a, a ≠ e → getSeg gA a = getSeg g a := by
      intro a ha
      rw [hgA, getSeg_adjLen]
      unfold setCellQ
      rw [getSeg_updSeg_ne _ _ ha, hg1, getSeg_updSeg_ne _ _ ha]
    have hg1e : getSeg g1 e = some { sg with enqueue_index := sg.enqueue_index + 1 } := by
      rw [hg1]
      exact getSeg_updSeg_same _ hsg
    have hgA_e : getSeg gA e = some sgA := by
      rw [hgA, getSeg_adjLen]
      unfold setCellQ
      rw [getSeg_updSeg_same _ hg1e, hsgA]
    have hwindA : segWindow sgA = segWindow sg ++ [item] := by
      rw [hsgA]
      exact segWindow_install item ⟨hclen, hszpos, hused, hempty⟩ hlt hd
    have hpend : pendingC gA ch = pendingC g ch ++ [item] := by
      conv_lhs => rw [hchdec]
      conv_rhs => rw [hchdec]
      rw [pendingC_append, pendingC_append]
      rw [pendingC_congr (fun i hi => hgA_ne i (fun hie => hnotdrop (hie ▸ hi)))]
      rw [pendingC_singleton, pendingC_singleton, hgA_e, hsg]
      simp [hwindA]
    refine ⟨gA, hrun, hlenA ▸ rfl, ?_, ⟨ch, ⟨inv.nonempty, ?_, ?_, ?_, inv.sorted,
      ?_, ?_, ?_, ?_, ?_, ?_, ?_, ?_, ?_⟩, hpend⟩, ?_⟩
    · rw [hqA]
    · rw [hqA]
      exact inv.head_deq
    · rw [hqA]
      exact inv.last_enq
    · refine links_congr ch ?_ inv.linked
      intro i hi
      by_cases hie : i = e
      · subst hie
        unfold nextOf
        rw [hgA_e, hsg]
        rfl
      · exact nextOf_eq_of_getSeg (hgA_ne i hie)
    · intro i hi
      rw [hheapA]
      exact inv.bounded i hi
    · intro i hi sg' hsg'
      by_cases hie : i = e
      · subst hie
        rw [hgA_e] at hsg'
        obtain rfl := Option.some.inj hsg'
        rw [hsgA]
        exact segWF_install item ⟨hclen, hszpos, hused, hempty⟩ hlt
      · rw [hgA_ne i hie] at hsg'
        exact inv.wf i hi sg' hsg'
    · intro i hi sg' hsg'
      by_cases hie : i = e
      · subst hie
        rw [hgA_e] at hsg'
        obtain rfl := Option.some.inj hsg'
        have h0 := inv.tail_deq_zero e hi sg hsg
        simpa [hsgA] using h0
      · rw [hgA_ne i hie] at hsg'
        exact inv.tail_deq_zero i hi sg' hsg'
    · intro sg' hsg'
      rw [show gA.q.segments.dequeue_segment = g.q.segments.dequeue_segment from
        congrArg queue_seg_ptrs_t.dequeue_segment hqA] at hsg'
      by_cases hde : g.q.segments.dequeue_segment = e
      · rw [hde, hgA_e] at hsg'
        obtain rfl := Option.some.inj hsg'
        have hold := inv.head_deq_le sg (by rw [← hde] at hsg; exact hsg)
        simp only [hsgA]
        omega
      · rw [hgA_ne _ hde] at hsg'
        exact inv.head_deq_le sg' hsg'
    · intro i hi sg' hsg'
      have hie : i ≠ e := fun hie => hnotdrop (hie ▸ hi)
      rw [hgA_ne i hie] at hsg'
      exact inv.mid_full i hi sg' hsg'
    · intro sg' hsg'
      rw [show gA.q.segments.enqueue_segment = e from
        congrArg queue_seg_ptrs_t.enqueue_segment hqA] at hsg'
      rw [hgA_e] at hsg'
      obtain rfl := Option.some.inj hsg'
      simp only [hsgA]
      omega
    · rw [hhelpA]
      exact inv.help_zero
    · rw [hdefA]
      exact inv.default_pos
    · rw [hlenA, inv.len_eq, hpend]
      push_cast [List.length_append, List.length_singleton]
      ring
    · refine ⟨e, sg.enqueue_index, ?_,
        Or.inr (by rw [getCellQ_of_getSeg hsg]; exact hcellg), ?_⟩
      · rw [getCellQ_of_getSeg hgA_e, hsgA]
        dsimp only
        exact List.getElem?_set_self (by omega)
      · intro s' i' c hne hc
        by_cases hs : s' = e
        · subst hs
          have hii : i' ≠ sg.enqueue_index := fun hii => hne ⟨rfl, hii⟩
          rw [getCellQ_of_getSeg hgA_e, hsgA]
          dsimp only
          rw [List.getElem?_set_ne (fun hh => hii hh.symm)]
          rw [getCellQ_of_getSeg hsg] at hc
          exact hc
        · rw [getCellQ_eq_of_getSeg_eq (hgA_ne s' hs)]
          exact hc
  · -- the enqueue segment is full: allocate and publish a successor
    have hnextnone : sg.next = none := by
      have hnn : nextOf g g.q.segments.enqueue_segment = none :=
        links_getLast_none ch inv.linked inv.last_enq
      unfold nextOf at hnn
      rw [hsg] at hnn
      simpa using hnn
    set e := g.q.segments.enqueue_segment with he
    set N := g.heap.length with hN
    set D := g.q.default_segment_size with hDdef
    set nsg : queue_segment_t :=
      ⟨D, 1, 0, none, ⟨item, .used⟩ :: List.replicate (D - 1) empty_cell⟩
      with hnsg
    set sgB : queue_segment_t :=
      { sg with enqueue_index := sg.enqueue_index + 1, next := some N } with hsgB
    set g1 := updSeg g e (fun s => { s with enqueue_index := s.enqueue_index + 1 })
      with hg1
    set g2 : QState := { g1 with heap := g1.heap ++ [nsg] } with hg2
    set g3 := updSeg g2 e (fun s => { s with next := some N }) with hg3
    set gB := adjLen { g3 with q := { g.q with segments :=
      ⟨N, g.q.segments.dequeue_segment⟩ } } 1 with hgB
    have hrun : queue_enqueue g item 2 = some gB := by
      rw [hgB, hg3, hg2, hg1, hnsg, hDdef, hN, he]
      exact enqueue_run_full hsg (by omega) hnextnone inv.help_zero item
    have hqB : gB.q.segments = ⟨N, g.q.segments.dequeue_segment⟩ := by
      rw [hgB]; rfl
    have hlenB : gB.q.len = g.q.len + 1 := by rw [hgB]; rfl
    have hhelpB : gB.q.help_needed = g.q.help_needed := by rw [hgB]; rfl
    have hdefB : gB.q.default_segment_size = D := by rw [hgB]; rfl
    have hg1e : getSeg g1 e =
        some { sg with enqueue_index := sg.enqueue_index + 1 } := by
      rw [hg1]
      exact getSeg_updSeg_same _ hsg
    have hN1 : g1.heap.length = N := by
      rw [hg1, hN]
      exact heapLen_updSeg _ _ _
    have hg2e : getSeg g2 e =
        some { sg with enqueue_index := sg.enqueue_index + 1 } := by
      rw [hg2, getSeg_append_lt _ (getSeg_lt hg1e)]
      exact hg1e
    have hheapB : gB.heap.length = N + 1 := by
      rw [hgB, adjLen_heap]
      show (updSeg g2 _ _).heap.length = N + 1
      rw [heapLen_updSeg, hg2]
      show (g1.heap ++ [nsg]).length = N + 1
      rw [List.length_append, hN1]
      rfl
    have hgB_e : getSeg gB e = some sgB := by
      rw [hgB, getSeg_adjLen, getSeg_q_update, hg3,
        getSeg_updSeg_same _ hg2e, hsgB]
    have hgB_N : getSeg gB N = some nsg := by
      rw [hgB, getSeg_adjLen, getSeg_q_update, hg3,
        getSeg_updSeg_ne _ _ (ne_of_gt heLt), hg2, ← hN1]
      exact getSeg_append_self g1 nsg
    have hgB_ne : ∀ a, a ≠ e → a ≠ N → getSeg gB a = getSeg g a := by
      intro a hae haN
      rw [hgB, getSeg_adjLen, getSeg_q_update, hg3, getSeg_updSeg_ne _ _ hae]
      rcases Nat.lt_or_ge a N with haLt | haGe
      · rw [hg2, getSeg_append_lt _ (by rw [hN1]; exact haLt), hg1,
          getSeg_updSeg_ne _ _ hae]
      · have hlen2 : g2.heap.length ≤ a := by
          rw [hg2]
          show (g1.heap ++ [nsg]).length ≤ a
          rw [List.length_append, hN1]
          simp only [List.length_singleton]
          omega
        have hleng : g.heap.length ≤ a := by omega
        rw [getSeg_none_of_ge hlen2, getSeg_none_of_ge hleng]
    have hwindB_e : segWindow sgB = segWindow sg := by
      rw [hsgB]
      exact segWindow_bump (some N) hge
    have hwindB_N : segWindow nsg = [item] := by
      rw [hnsg]
      exact segWindow_fresh item D inv.default_pos
    have hmemN : ∀ i ∈ ch, i < N := fun i hi => hN ▸ inv.bounded i hi
    have hpendch : pendingC gB ch = pendingC g ch := by
      conv_lhs => rw [hchdec]
      conv_rhs => rw [hchdec]
      rw [pendingC_append, pendingC_append]
      rw [pendingC_congr (fun i hi => hgB_ne i
        (fun hie => hnotdrop (hie ▸ hi))
        (Nat.ne_of_lt (hmemN i (by rw [hchdec]; exact List.mem_append_left _ hi))))]
      rw [pendingC_singleton, pendingC_singleton, hgB_e, hsg]
      simp [hwindB_e]
    have hpend : pendingC gB (ch ++ [N]) = pendingC g ch ++ [item] := by
      rw [pendingC_append, hpendch, pendingC_singleton, hgB_N]
      simp [hwindB_N]
    refine ⟨gB, hrun, hlenB, by rw [hqB], ⟨ch ++ [N], ⟨by simp, ?_, ?_, ?_, ?_,
      ?_, ?_, ?_, ?_, ?_, ?_, ?_, ?_, ?_⟩, hpend⟩, ?_⟩
    · rw [head?_append_left inv.nonempty, hqB]
      exact inv.head_deq
    · rw [List.getLast?_concat, hqB]
    · refine links_snoc ch inv.linked inv.last_enq hnotdrop ?_ ?_ ?_
      · intro i hi hie
        exact nextOf_eq_of_getSeg (hgB_ne i hie (Nat.ne_of_lt (hmemN i hi)))
      · unfold nextOf
        rw [hgB_e, hsgB]
        rfl
      · unfold nextOf
        rw [hgB_N, hnsg]
        rfl
    · rw [List.chain'_append]
      refine ⟨inv.sorted, List.chain'_singleton N, ?_⟩
      intro x hx y hy
      have hxe : x = e := by
        rw [inv.last_enq] at hx
        exact (Option.some.inj (Option.mem_def.mp hx)).symm
      have hyN : y = N := by
        simp only [List.head?_cons, Option.mem_def, Option.some.injEq] at hy
        omega
      rw [hxe, hyN]
      exact heLt
    · intro i hi
      rw [hheapB]
      rcases List.mem_append.mp hi with hi | hi
      · exact Nat.lt_succ_of_lt (hmemN i hi)
      · rw [List.mem_singleton.mp hi]
        omega
    · intro i hi sg' hsg'
      rcases List.mem_append.mp hi with hi | hi
      · by_cases hie : i = e
        · subst hie
          rw [hgB_e] at hsg'
          obtain rfl := Option.some.inj hsg'
          rw [hsgB]
          exact segWF_bump (some N) ⟨hclen, hszpos, hused, hempty⟩ hge
        · rw [hgB_ne i hie (Nat.ne_of_lt (hmemN i hi))] at hsg'
          exact inv.wf i hi sg' hsg'
      · have hiN : i = N := List.mem_singleton.mp hi
        subst hiN
        rw [hgB_N] at hsg'
        obtain rfl := Option.some.inj hsg'
        rw [hnsg]
        exact segWF_fresh item D inv.default_pos
    · intro i hi sg' hsg'
      rw [tail_append_left inv.nonempty] at hi
      rcases List.mem_append.mp hi with hi | hi
      · by_cases hie : i = e
        · subst hie
          rw [hgB_e] at hsg'
          obtain rfl := Option.some.inj hsg'
          have h0 := inv.tail_deq_zero e hi sg hsg
          simpa [hsgB] using h0
        · rw [hgB_ne i hie
            (Nat.ne_of_lt (hmemN i (List.mem_of_mem_tail hi)))] at hsg'
          exact inv.tail_deq_zero i hi sg' hsg'
      · have hiN : i = N := List.mem_singleton.mp hi
        subst hiN
        rw [hgB_N] at hsg'
        obtain rfl := Option.some.inj hsg'
        rw [hnsg]
    · intro sg' hsg'
      have hdq : gB.q.segments.dequeue_segment = g.q.segments.dequeue_segment := by
        rw [hqB]
      rw [hdq] at hsg'
      by_cases hde : g.q.segments.dequeue_segment = e
      · rw [hde, hgB_e] at hsg'
        obtain rfl := Option.some.inj hsg'
        have hold := inv.head_deq_le sg (by rw [← hde] at hsg; exact hsg)
        simp only [hsgB]
        omega
      · have hdN : g.q.segments.dequeue_segment ≠ N :=
          Nat.ne_of_lt (hmemN _
            (List.mem_of_mem_head? (Option.mem_def.mpr inv.head_deq)))
        rw [hgB_ne _ hde hdN] at hsg'
        exact inv.head_deq_le sg' hsg'
    · intro i hi sg' hsg'
      rw [List.dropLast_concat] at hi
      by_cases hie : i = e
      · subst hie
        rw [hgB_e] at hsg'
        obtain rfl := Option.some.inj hsg'
        simp only [hsgB]
        omega
      · rw [hgB_ne i hie (Nat.ne_of_lt (hmemN i hi))] at hsg'
        have hidrop : i ∈ ch.dropLast := by
          have hmem := hi
          rw [hchdec] at hmem
          rcases List.mem_append.mp hmem with h | h
          · exact h
          · exact absurd (List.mem_singleton.mp h) hie
        exact inv.mid_full i hidrop sg' hsg'
    · intro sg' hsg'
      have henq : gB.q.segments.enqueue_segment = N := by rw [hqB]
      rw [henq, hgB_N] at hsg'
      obtain rfl := Option.some.inj hsg'
      simp only [hnsg]
      exact inv.default_pos
    · rw [hhelpB]
      exact inv.help_zero
    · rw [hdefB]
      exact inv.default_pos
    · rw [hlenB, inv.len_eq, hpend]
      push_cast [List.length_append, List.length_singleton]
      ring
    · refine ⟨N, 0, ?_, Or.inl ?_, ?_⟩
      · rw [getCellQ_of_getSeg hgB_N, hnsg]
        simp
      · unfold getCellQ
        rw [getSeg_none_of_ge (le_of_eq hN.symm)]
        rfl
      · intro s' i' c hne hc
        have hs'lt : s' < N := by
          by_contra hcon
          push_neg at hcon
          unfold getCellQ at hc
          rw [getSeg_none_of_ge (by omega : g.heap.length ≤ s')] at hc
          exact absurd hc (by simp)
        by_cases hs : s' = e
        · subst hs
          rw [getCellQ_of_getSeg hgB_e, hsgB]
          dsimp only
          rw [getCellQ_of_getSeg hsg] at hc
          exact hc
        · rw [getCellQ_eq_of_getSeg_eq (hgB_ne s' hs (Nat.ne_of_lt hs'lt))]
          exact hc

theorem queue_dequeue_swing_pos {g : QState} {expected : queue_seg_ptrs_t}
    (seg new_seg : Nat) {fuel : Nat} (h : g.q.segments = expected)
    (hf : 0 < fuel) :
    queue_dequeue_swing g expected seg new_seg fuel =
      some ({ g with q := { g.q with segments :=
          ⟨expected.enqueue_segment, new_seg⟩ } },
        ⟨expected.enqueue_segment, new_seg⟩, new_seg) := by
  cases fuel with
  | zero => omega
  | succ n => rw [queue_dequeue_swing, if_pos h]

theorem chain_length_le {g : QState} {ch : List Nat} (inv : InvC g ch) :
    ch.length ≤ g.heap.length := by
  have hnd : ch.Nodup := (List.chain'_iff_pairwise.mp inv.sorted).nodup
  calc ch.length = ch.toFinset.card := (List.toFinset_card_of_nodup hnd).symm
    _ ≤ (Finset.range g.heap.length).card := by
        refine Finset.card_le_card ?_
        intro i hi
        exact Finset.mem_range.mpr (inv.bounded i (List.mem_toFinset.mp hi))
    _ = g.heap.length := Finset.card_range _

theorem segWF_set_deq {sg : queue_segment_t} (k : Nat) (h : segWF sg) :
    segWF { sg with dequeue_index := k } := h

theorem segWindow_head {sg : queue_segment_t}
    (hlen : sg.cells.length = sg.size)
    (hlt : sg.dequeue_index < min sg.enqueue_index sg.size) :
    ∃ c, sg.cells[sg.dequeue_index]? = some c ∧
      segWindow sg =
        c.item :: segWindow { sg with dequeue_index := sg.dequeue_index + 1 } := by
  have hdl : sg.dequeue_index < sg.cells.length := by omega
  have htl : sg.dequeue_index <
      (sg.cells.take (min sg.enqueue_index sg.size)).length := by
    rw [List.length_take]
    omega
  refine ⟨sg.cells[sg.dequeue_index], List.getElem?_eq_getElem hdl, ?_⟩
  unfold segWindow
  dsimp only
  rw [List.drop_eq_getElem_cons htl, List.map_cons]
  congr 1
  simp [List.getElem_take]

theorem dequeue_run_take {g : QState} {sgd : queue_segment_t}
    {c : queue_item_t}
    (hsgd : getSeg g g.q.segments.dequeue_segment = some sgd)
    (hsz : sgd.dequeue_index < sgd.size)
    (hhd : sgd.dequeue_index < sgd.enqueue_index)
    (hcell : sgd.cells[sgd.dequeue_index]? = some c)
    (hcne : c ≠ empty_cell)
    (fuel : Nat) :
    queue_dequeue_loop (fuel + 1) g g.q.segments g.q.segments.dequeue_segment =
      some (adjLen (updSeg g g.q.segments.dequeue_segment
        (fun s => { s with dequeue_index := s.dequeue_index + 1 })) (-1),
        true, c.item) := by
  have hdix : deqIdxOf g g.q.segments.dequeue_segment = sgd.dequeue_index := by
    unfold deqIdxOf; rw [hsgd]; rfl
  have hhix : enqIdxOf g g.q.segments.dequeue_segment = sgd.enqueue_index := by
    unfold enqIdxOf; rw [hsgd]; rfl
  have hszq : segSizeOf g g.q.segments.dequeue_segment = sgd.size := by
    unfold segSizeOf; rw [hsgd]; rfl
  have hup : getSeg (updSeg g g.q.segments.dequeue_segment
      (fun s => { s with dequeue_index := s.dequeue_index + 1 }))
      g.q.segments.dequeue_segment =
      some { sgd with dequeue_index := sgd.dequeue_index + 1 } :=
    getSeg_updSeg_same _ hsgd
  have hszq2 : segSizeOf (updSeg g g.q.segments.dequeue_segment
      (fun s => { s with dequeue_index := s.dequeue_index + 1 }))
      g.q.segments.dequeue_segment = sgd.size := by
    unfold segSizeOf; rw [hup]; rfl
  have hcell2 : getCellQ (updSeg g g.q.segments.dequeue_segment
      (fun s => { s with dequeue_index := s.dequeue_index + 1 }))
      g.q.segments.dequeue_segment sgd.dequeue_index = some c := by
    rw [getCellQ_of_getSeg hup]
    exact hcell
  rw [queue_dequeue_loop]
  simp only [faaDeqIdx, hdix, hhix, hszq, hszq2]
  rw [if_neg (by omega), if_neg (by omega), if_neg (by omega), hcell2]
  dsimp only
  rw [if_neg hcne]

theorem dequeue_run_empty {g : QState} {sgd : queue_segment_t}
    (hsgd : getSeg g g.q.segments.dequeue_segment = some sgd)
    (hsz : sgd.dequeue_index < sgd.size)
    (hhd : sgd.enqueue_index ≤ sgd.dequeue_index)
    (fuel : Nat) :
    queue_dequeue_loop (fuel + 1) g g.q.segments g.q.segments.dequeue_segment =
      some (g, false, 0) := by
  have hdix : deqIdxOf g g.q.segments.dequeue_segment = sgd.dequeue_index := by
    unfold deqIdxOf; rw [hsgd]; rfl
  have hhix : enqIdxOf g g.q.segments.dequeue_segment = sgd.enqueue_index := by
    unfold enqIdxOf; rw [hsgd]; rfl
  have hszq : segSizeOf g g.q.segments.dequeue_segment = sgd.size := by
    unfold segSizeOf; rw [hsgd]; rfl
  rw [queue_dequeue_loop]
  simp only [hdix, hhix, hszq]
  rw [if_neg (by omega), if_pos (by omega)]

theorem dequeue_run_none {g : QState} {sgd : queue_segment_t}
    (hsgd : getSeg g g.q.segments.dequeue_segment = some sgd)
    (hsz : sgd.size ≤ sgd.dequeue_index)
    (hnext : sgd.next = none)
    (fuel : Nat) :
    queue_dequeue_loop (fuel + 1) g g.q.segments g.q.segments.dequeue_segment =
      some (g, false, 0) := by
  have hdix : deqIdxOf g g.q.segments.dequeue_segment = sgd.dequeue_index := by
    unfold deqIdxOf; rw [hsgd]; rfl
  have hszq : segSizeOf g g.q.segments.dequeue_segment = sgd.size := by
    unfold segSizeOf; rw [hsgd]; rfl
  have hnn : nextOf g g.q.segments.dequeue_segment = none := by
    unfold nextOf; rw [hsgd]; exact hnext
  rw [queue_dequeue_loop]
  simp only [hdix, hszq]
  rw [if_pos (by omega), hnn]

theorem dequeue_run_advance {g : QState} {sgd : queue_segment_t} {s1 : Nat}
    (hsgd : getSeg g g.q.segments.dequeue_segment = some sgd)
    (hsz : sgd.size ≤ sgd.dequeue_index)
    (hnext : sgd.next = some s1)
    (fuel : Nat) :
    queue_dequeue_loop (fuel + 1) g g.q.segments g.q.segments.dequeue_segment =
      queue_dequeue_loop fuel
        { g with q := { g.q with segments :=
            ⟨g.q.segments.enqueue_segment, s1⟩ } }
        ⟨g.q.segments.enqueue_segment, s1⟩ s1 := by
  have hdix : deqIdxOf g g.q.segments.dequeue_segment = sgd.dequeue_index := by
    unfold deqIdxOf; rw [hsgd]; rfl
  have hszq : segSizeOf g g.q.segments.dequeue_segment = sgd.size := by
    unfold segSizeOf; rw [hsgd]; rfl
  have hnn : nextOf g g.q.segments.dequeue_segment = some s1 := by
    unfold nextOf; rw [hsgd]; exact hnext
  rw [queue_dequeue_loop]
  simp only [hdix, hszq]
  rw [if_pos (by omega), hnn]
  dsimp only
  rw [queue_dequeue_swing_pos _ _ rfl (by omega)]

theorem segWindow_drained {sg : queue_segment_t}
    (h : min sg.enqueue_index sg.size ≤ sg.dequeue_index) :
    segWindow sg = [] := by
  unfold segWindow
  rw [List.drop_eq_nil_of_le (by rw [List.length_take]; omega)]
  rfl

theorem dequeue_loop_spec :
    ∀ n : Nat, ∀ g : QState, ∀ ch : List Nat, InvC g ch → ch.length ≤ n →
      ∃ g' found x,
        queue_dequeue_loop n g g.q.segments g.q.segments.dequeue_segment =
          some (g', found, x) ∧
        ∃ ch', InvC g' ch' ∧
          ((found = false ∧ x = 0 ∧ pendingC g ch = [] ∧
            pendingC g' ch' = []) ∨
           (found = true ∧ pendingC g ch = x :: pendingC g' ch')) := by
  intro n
  induction n with
  | zero =>
    intro g ch inv hlen
    exact absurd (List.length_eq_zero.mp (Nat.le_zero.mp hlen)) inv.nonempty
  | succ n ih =>
    intro g ch inv hlen
    have hdMem : g.q.segments.dequeue_segment ∈ ch :=
      List.mem_of_mem_head? (Option.mem_def.mpr inv.head_deq)
    have hdLt := inv.bounded _ hdMem
    obtain ⟨sgd, hsgd⟩ : ∃ s, getSeg g g.q.segments.dequeue_segment = some s :=
      ⟨_, List.getElem?_eq_getElem hdLt⟩
    obtain ⟨hclen, hszpos, hused, hempty⟩ := inv.wf _ hdMem sgd hsgd
    have hdle := inv.head_deq_le sgd hsgd
    have hnd : ch.Nodup := (List.chain'_iff_pairwise.mp inv.sorted).nodup
    obtain ⟨rest, hch⟩ :
        ∃ rest, ch = g.q.segments.dequeue_segment :: rest := by
      rcases hc : ch with _ | ⟨a, t⟩
      · exact absurd hc inv.nonempty
      · refine ⟨t, ?_⟩
        have hh := inv.head_deq
        rw [hc] at hh
        have ha : a = g.q.segments.dequeue_segment := by simpa using hh
        rw [ha]
    have hdrest : g.q.segments.dequeue_segment ∉ rest := by
      have := hnd
      rw [hch] at this
      exact (List.nodup_cons.mp this).1
    rcases Nat.lt_or_ge sgd.dequeue_index (min sgd.enqueue_index sgd.size)
      with hlt | hge₂
    · -- a pending item is available in the dequeue segment
      obtain ⟨c, hcell, hwin⟩ := segWindow_head hclen hlt
      have hcused : c.state = .used := hused _ _ hcell hlt
      have hcne : c ≠ empty_cell := by
        intro hne
        rw [hne] at hcused
        exact absurd hcused (by decide)
      have hrun := dequeue_run_take hsgd (by omega) (by omega) hcell hcne n
      set gD := adjLen (updSeg g g.q.segments.dequeue_segment
        (fun s => { s with dequeue_index := s.dequeue_index + 1 })) (-1)
        with hgD
      have hq_upd : (updSeg g g.q.segments.dequeue_segment
          (fun s => { s with dequeue_index := s.dequeue_index + 1 })).q = g.q :=
        q_updSeg _ _ _
      have hqD : gD.q.segments = g.q.segments := by
        rw [hgD, adjLen_q_segments, hq_upd]
      have hlenD : gD.q.len = g.q.len + (-1) := by
        rw [hgD, adjLen_q_len, hq_upd]
      have hhelpD : gD.q.help_needed = g.q.help_needed := by
        rw [hgD, adjLen_q_help, hq_upd]
      have hdefD : gD.q.default_segment_size = g.q.default_segment_size := by
        rw [hgD, adjLen_q_default, hq_upd]
      have hheapD : gD.heap.length = g.heap.length := by
        rw [hgD, adjLen_heap, heapLen_updSeg]
      have hgD_d : getSeg gD g.q.segments.dequeue_segment =
          some { sgd with dequeue_index := sgd.dequeue_index + 1 } := by
        rw [hgD, getSeg_adjLen]
        exact getSeg_updSeg_same _ hsgd
      have hgD_ne : ∀ a, a ≠ g.q.segments.dequeue_segment →
          getSeg gD a = getSeg g a := by
        intro a ha
        rw [hgD, getSeg_adjLen]
        exact getSeg_updSeg_ne _ _ ha
      have hpendD : pendingC g ch = c.item :: pendingC gD ch := by
        conv_lhs => rw [hch]
        conv_rhs => rw [hch]
        rw [show (g.q.segments.dequeue_segment :: rest : List Nat) =
          [g.q.segments.dequeue_segment] ++ rest from rfl]
        rw [pendingC_append, pendingC_append]
        rw [pendingC_singleton, pendingC_singleton, hsgd, hgD_d]
        rw [pendingC_congr (fun i hi => hgD_ne i (fun hie => hdrest (hie ▸ hi)))]
        show segWindow sgd ++ _ = c.item :: (segWindow _ ++ _)
        rw [hwin]
        rfl
      refine ⟨gD, true, c.item, hrun, ch, ⟨inv.nonempty, ?_, ?_, ?_, inv.sorted,
        ?_, ?_, ?_, ?_, ?_, ?_, ?_, ?_, ?_⟩, Or.inr ⟨rfl, hpendD⟩⟩
      · rw [hqD]
        exact inv.head_deq
      · rw [hqD]
        exact inv.last_enq
      · refine links_congr ch ?_ inv.linked
        intro i hi
        by_cases hie : i = g.q.segments.dequeue_segment
        · subst hie
          unfold nextOf
          rw [hgD_d, hsgd]
          rfl
        · exact nextOf_eq_of_getSeg (hgD_ne i hie)
      · intro i hi
        rw [hheapD]
        exact inv.bounded i hi
      · intro i hi sg' hsg'
        by_cases hie : i = g.q.segments.dequeue_segment
        · subst hie
          rw [hgD_d] at hsg'
          obtain rfl := Option.some.inj hsg'
          exact segWF_set_deq _ ⟨hclen, hszpos, hused, hempty⟩
        · rw [hgD_ne i hie] at hsg'
          exact inv.wf i hi sg' hsg'
      · intro i hi sg' hsg'
        have hie : i ≠ g.q.segments.dequeue_segment := by
          intro hie
          rw [hch] at hi
          exact hdrest (hie ▸ hi)
        rw [hgD_ne i hie] at hsg'
        exact inv.tail_deq_zero i hi sg' hsg'
      · intro sg' hsg'
        rw [show gD.q.segments.dequeue_segment = g.q.segments.dequeue_segment
          from congrArg queue_seg_ptrs_t.dequeue_segment hqD, hgD_d] at hsg'
        obtain rfl := Option.some.inj hsg'
        dsimp only
        omega
      · intro i hi sg' hsg'
        by_cases hie : i = g.q.segments.dequeue_segment
        · subst hie
          rw [hgD_d] at hsg'
          obtain rfl := Option.some.inj hsg'
          have hold := inv.mid_full _ hi sgd hsgd
          dsimp only
          omega
        · rw [hgD_ne i hie] at hsg'
          exact inv.mid_full i hi sg' hsg'
      · intro sg' hsg'
        rw [show gD.q.segments.enqueue_segment = g.q.segments.enqueue_segment
          from congrArg queue_seg_ptrs_t.enqueue_segment hqD] at hsg'
        by_cases hie : g.q.segments.enqueue_segment = g.q.segments.dequeue_segment
        · rw [hie, hgD_d] at hsg'
          obtain rfl := Option.some.inj hsg'
          have hold := inv.last_le sgd (by rw [hie]; exact hsgd)
          dsimp only
          omega
        · rw [hgD_ne _ hie] at hsg'
          exact inv.last_le sg' hsg'
      · rw [hhelpD]
        exact inv.help_zero
      · rw [hdefD]
        exact inv.default_pos
      · rw [hlenD, inv.len_eq, hpendD]
        push_cast [List.length_cons]
        ring
    · -- the dequeue segment's window is drained
      have hwdrain : segWindow sgd = [] := segWindow_drained hge₂
      rcases Nat.lt_or_ge sgd.dequeue_index sgd.size with hlt₂ | hge₃
      · -- dequeue_index below size: the segment (and queue) is empty
        have henq : sgd.enqueue_index ≤ sgd.dequeue_index := by omega
        have hrun := dequeue_run_empty hsgd hlt₂ henq n
        have hrest : rest = [] := by
          rcases hr : rest with _ | ⟨b, t⟩
          · rfl
          · exfalso
            have hdrop : g.q.segments.dequeue_segment ∈ ch.dropLast := by
              rw [hch, hr, List.dropLast_cons_of_ne_nil (by simp)]
              exact List.mem_cons_self _ _
            have := inv.mid_full _ hdrop sgd hsgd
            omega
        have hpnil : pendingC g ch = [] := by
          rw [hch, hrest, pendingC_singleton, hsgd]
          simpa using hwdrain
        exact ⟨g, false, 0, hrun, ch, inv, Or.inl ⟨rfl, rfl, hpnil, hpnil⟩⟩
      · rcases hnx : sgd.next with _ | s1
        · -- no successor: the queue is empty
          have hrun := dequeue_run_none hsgd hge₃ hnx n
          have hrest : rest = [] := by
            rcases hr : rest with _ | ⟨b, t⟩
            · rfl
            · exfalso
              have hlk := inv.linked
              rw [hch, hr] at hlk
              have hb : nextOf g g.q.segments.dequeue_segment = some b := hlk.1
              unfold nextOf at hb
              rw [hsgd] at hb
              rw [show (some sgd).bind queue_segment_t.next = sgd.next from rfl,
                hnx] at hb
              exact absurd hb (by simp)
          have hpnil : pendingC g ch = [] := by
            rw [hch, hrest, pendingC_singleton, hsgd]
            simpa using hwdrain
          exact ⟨g, false, 0, hrun, ch, inv, Or.inl ⟨rfl, rfl, hpnil, hpnil⟩⟩
        · -- advance to the successor segment
          have hrun := dequeue_run_advance hsgd hge₃ hnx n
          obtain ⟨rest', hrest⟩ : ∃ rest', rest = s1 :: rest' := by
            rcases hr : rest with _ | ⟨b, t⟩
            · exfalso
              have hlk := inv.linked
              rw [hch, hr] at hlk
              have hb : nextOf g g.q.segments.dequeue_segment = none := hlk
              unfold nextOf at hb
              rw [hsgd] at hb
              rw [show (some sgd).bind queue_segment_t.next = sgd.next from rfl,
                hnx] at hb
              exact absurd hb (by simp)
            · have hlk := inv.linked
              rw [hch, hr] at hlk
              have hb : nextOf g g.q.segments.dequeue_segment = some b := hlk.1
              unfold nextOf at hb
              rw [hsgd] at hb
              rw [show (some sgd).bind queue_segment_t.next = sgd.next from rfl,
                hnx] at hb
              exact ⟨t, by rw [Option.some.inj hb]⟩
          set g1 : QState := { g with q := { g.q with segments :=
            ⟨g.q.segments.enqueue_segment, s1⟩ } } with hg1
          have hpend_eq : pendingC g1 rest = pendingC g ch := by
            have h1 : pendingC g1 rest = pendingC g rest := rfl
            rw [h1]
            conv_rhs => rw [hch]
            rw [show (g.q.segments.dequeue_segment :: rest : List Nat) =
              [g.q.segments.dequeue_segment] ++ rest from rfl]
            rw [pendingC_append, pendingC_singleton, hsgd]
            simp [hwdrain]
          have hinv1 : InvC g1 rest := by
            refine ⟨by rw [hrest]; simp, by rw [hrest]; rfl, ?_, ?_, ?_, ?_, ?_,
              ?_, ?_, ?_, ?_, inv.help_zero, inv.default_pos, ?_⟩
            · have hl := inv.last_enq
              rw [hch, hrest] at hl
              rw [List.getLast?_cons_cons] at hl
              rw [hrest]
              exact hl
            · have hlk := inv.linked
              rw [hch, hrest] at hlk
              rw [hrest]
              have hf : ∀ i ∈ (s1 :: rest' : List Nat),
                  nextOf g1 i = nextOf g i := fun i _ => rfl
              exact links_congr _ hf hlk.2
            · have hs := inv.sorted
              rw [hch] at hs
              exact hs.tail
            · intro i hi
              exact inv.bounded i (by rw [hch]; exact List.mem_cons_of_mem _ hi)
            · intro i hi sg' hsg'
              exact inv.wf i (by rw [hch]; exact List.mem_cons_of_mem _ hi)
                sg' hsg'
            · intro i hi sg' hsg'
              rw [hrest] at hi
              refine inv.tail_deq_zero i ?_ sg' hsg'
              rw [hch]
              show i ∈ rest
              rw [hrest]
              exact List.mem_cons_of_mem _ (by simpa using hi)
            · intro sg' hsg'
              have hs1mem : s1 ∈ ch.tail := by
                rw [hch, hrest]
                exact List.mem_cons_self _ _
              have h0 := inv.tail_deq_zero s1 hs1mem sg' hsg'
              omega
            · intro i hi sg' hsg'
              refine inv.mid_full i ?_ sg' hsg'
              rw [hch, List.dropLast_cons_of_ne_nil (by rw [hrest]; simp)]
              exact List.mem_cons_of_mem _ hi
            · intro sg' hsg'
              exact inv.last_le sg' hsg'
            · rw [show g1.q.len = g.q.len from rfl, inv.len_eq, hpend_eq]
          have hlen1 : rest.length ≤ n := by
            rw [hch] at hlen
            simpa using hlen
          obtain ⟨g', found, x, hrun2, ch', hinv', hcase⟩ :=
            ih g1 rest hinv1 hlen1
          refine ⟨g', found, x, ?_, ch', hinv', ?_⟩
          · rw [hrun]
            exact hrun2
          · rcases hcase with ⟨hf, hx, hp, hp'⟩ | ⟨hf, hp⟩
            · exact Or.inl ⟨hf, hx, by rw [← hpend_eq]; exact hp, hp'⟩
            · exact Or.inr ⟨hf, by rw [← hpend_eq]; exact hp⟩

theorem dequeue_spec {g : QState} {ch : List Nat} (inv : InvC g ch) :
    ∃ g' found x,
      queue_dequeue g (g.heap.length + 1) = some (g', found, x) ∧
      ∃ ch', InvC g' ch' ∧
        ((found = false ∧ x = 0 ∧ pendingC g ch = [] ∧
          pendingC g' ch' = []) ∨
         (found = true ∧ pendingC g ch = x :: pendingC g' ch')) := by
  have h1 : ch.length ≤ g.heap.length + 1 :=
    le_trans (chain_length_le inv) (Nat.le_succ _)
  exact dequeue_loop_spec (g.heap.length + 1) g ch inv h1

theorem initial_InvC (n : Nat) (hn : 1 ≤ n) :
    InvC ⟨⟨⟨0, 0⟩, n, 0, 0⟩, [queue_new_segment n]⟩ [0] ∧
    pendingC ⟨⟨⟨0, 0⟩, n, 0, 0⟩, [queue_new_segment n]⟩ [0] = [] := by
  have hseg : getSeg (⟨⟨⟨0, 0⟩, n, 0, 0⟩, [queue_new_segment n]⟩ : QState) 0 =
      some (queue_new_segment n) := rfl
  have hwin : segWindow (queue_new_segment n) = [] := by
    unfold segWindow queue_new_segment
    simp
  have hpend : pendingC ⟨⟨⟨0, 0⟩, n, 0, 0⟩, [queue_new_segment n]⟩ [0] = [] := by
    rw [pendingC_singleton, hseg]
    simpa using hwin
  refine ⟨⟨by simp, rfl, rfl, ?_, List.chain'_singleton 0, ?_, ?_, ?_, ?_,
    ?_, ?_, rfl, hn, ?_⟩, hpend⟩
  · show nextOf _ 0 = none
    rfl
  · intro i hi
    rw [List.mem_singleton.mp hi]
    simp
  · intro i hi sg' hsg'
    rw [List.mem_singleton.mp hi] at hsg'
    rw [hseg] at hsg'
    obtain rfl := Option.some.inj hsg'
    refine ⟨?_, hn, ?_, ?_⟩
    · show (List.replicate n empty_cell).length = n
      simp
    · intro j c hc hj
      simp only [queue_new_segment] at hj
      omega
    · intro j c hc _
      exact List.eq_of_mem_replicate (List.getElem?_mem hc)
  · intro i hi sg' hsg'
    simp at hi
  · intro sg' hsg'
    rw [hseg] at hsg'
    obtain rfl := Option.some.inj hsg'
    show (0 : Nat) ≤ min 0 n
    omega
  · intro i hi sg' hsg'
    simp at hi
  · intro sg' hsg'
    rw [hseg] at hsg'
    obtain rfl := Option.some.inj hsg'
    show (0 : Nat) ≤ n
    omega
  · rw [hpend]
    rfl

theorem queue_init_InvC {qmin qmax qdef size_log : Int} {g0 : QState}
    (h : queue_init_size qmin qmax qdef size_log = some g0) :
    ∃ ch0, InvC g0 ch0 ∧ pendingC g0 ch0 = [] := by
  by_cases h0 : size_log = 0
  · rw [queue_init_size, if_pos h0] at h
    obtain rfl := Option.some.inj h.symm
    obtain ⟨hi, hp⟩ := initial_InvC (2 ^ qdef.toNat) Nat.one_le_two_pow
    exact ⟨[0], hi, hp⟩
  · rw [queue_init_size, if_neg h0] at h
    by_cases hr : size_log < qmin ∨ qmax < size_log
    · rw [if_pos hr] at h
      exact absurd h (by simp)
    · rw [if_neg hr] at h
      obtain rfl := Option.some.inj h.symm
      obtain ⟨hi, hp⟩ := initial_InvC (2 ^ size_log.toNat) Nat.one_le_two_pow
      exact ⟨[0], hi, hp⟩

theorem runOps_spec :
    ∀ (ops : List SeqOp) (g : QState) (ch : List Nat), InvC g ch →
      ∃ g' outs, runOps g ops = some (g', outs) ∧
        ∃ ch', InvC g' ch' ∧
          pendingC g' ch' = (absRun (pendingC g ch) ops).1 ∧
          outs = (absRun (pendingC g ch) ops).2 := by
  intro ops
  induction ops with
  | nil =>
    intro g ch inv
    exact ⟨g, [], rfl, ch, inv, rfl, rfl⟩
  | cons op rest ih =>
    intro g ch inv
    cases op with
    | enq x =>
      obtain ⟨g1, hrun, _, _, ⟨ch1, hinv1, hpend1⟩, _⟩ := enqueue_spec inv x
      obtain ⟨g', outs, hrun2, ch', hinv', hp', ho'⟩ := ih g1 ch1 hinv1
      refine ⟨g', outs, ?_, ch', hinv', ?_, ?_⟩
      · rw [runOps, hrun]
        exact hrun2
      · rw [hp', absRun, ← hpend1]
      · rw [ho', absRun, ← hpend1]
    | deq =>
      obtain ⟨g1, found, x, hrun, ch1, hinv1, hcase⟩ := dequeue_spec inv
      obtain ⟨g', outs, hrun2, ch', hinv', hp', ho'⟩ := ih g1 ch1 hinv1
      refine ⟨g', (found, x) :: outs, ?_, ch', hinv', ?_, ?_⟩
      · rw [runOps, hrun]
        dsimp only
        rw [hrun2]
      · rcases hcase with ⟨hf, hx, hp, hp1⟩ | ⟨hf, hp⟩
        · rw [hp', hp1, hp, absRun]
        · rw [hp', hp, absRun]
      · rcases hcase with ⟨hf, hx, hp, hp1⟩ | ⟨hf, hp⟩
        · rw [ho', hp1, hp, absRun, hf, hx]
        · rw [ho', hp, absRun, hf]

theorem absRun_count :
    ∀ (ops : List SeqOp) (q : List Nat),
      q.length + enqCount ops =
        foundCount (absRun q ops).2 + (absRun q ops).1.length := by
  intro ops
  induction ops with
  | nil =>
    intro q
    simp [absRun, enqCount, enqItems, foundCount]
  | cons op rest ih =>
    intro q
    cases op with
    | enq x =>
      have h := ih (q ++ [x])
      rw [absRun]
      have hc : enqCount (SeqOp.enq x :: rest) = enqCount rest + 1 := by
        simp [enqCount, enqItems]
      rw [hc]
      rw [List.length_append] at h
      simp only [List.length_singleton] at h
      omega
    | deq =>
      cases q with
      | nil =>
        have h := ih []
        rw [absRun]
        have hc : enqCount (SeqOp.deq :: rest) = enqCount rest := by
          simp [enqCount, enqItems]
        rw [hc]
        have hf : foundCount ((false, 0) :: (absRun [] rest).2) =
            foundCount (absRun [] rest).2 := by
          simp [foundCount]
        dsimp only
        rw [hf]
        simpa using h
      | cons y q' =>
        have h := ih q'
        rw [absRun]
        have hc : enqCount (SeqOp.deq :: rest) = enqCount rest := by
          simp [enqCount, enqItems]
        rw [hc]
        have hf : foundCount ((true, y) :: (absRun q' rest).2) =
            foundCount (absRun q' rest).2 + 1 := by
          simp [foundCount]
        dsimp only
        rw [hf]
        simp only [List.length_cons]
        omega

theorem absRun_mem :
    ∀ (ops : List SeqOp) (q : List Nat) (y : Nat),
      y ∈ (absRun q ops).1 → y ∈ q ∨ y ∈ enqItems ops := by
  intro ops
  induction ops with
  | nil =>
    intro q y hy
    rw [absRun] at hy
    exact Or.inl hy
  | cons op rest ih =>
    intro q y hy
    cases op with
    | enq x =>
      rw [absRun] at hy
      rcases ih (q ++ [x]) y hy with h | h
      · rcases List.mem_append.mp h with h | h
        · exact Or.inl h
        · right
          rw [List.mem_singleton.mp h]
          simp [enqItems]
      · right
        simp [enqItems]
        right
        simpa [enqItems] using h
    | deq =>
      cases q with
      | nil =>
        rw [absRun] at hy
        dsimp only at hy
        rcases ih [] y hy with h | h
        · exact absurd h (by simp)
        · right
          simpa [enqItems] using h
      | cons z q' =>
        rw [absRun] at hy
        dsimp only at hy
        rcases ih q' y hy with h | h
        · exact Or.inl (List.mem_cons_of_mem _ h)
        · right
          simpa [enqItems] using h

/-! ## Queue initialization (C9) -/

/-- C9 (counterexample).  With the representative configuration
constants `QSIZE_LOG_MIN = 6`, `QSIZE_LOG_MAX = 25`,
`QSIZE_LOG_DEFAULT = 14`, the argument `size_log = 0` lies outside the
valid range `[6, 25]`, yet `queue_init_size` does not abort: the code
replaces a zero `size_log` with the default before the range check. -/
theorem queue_init_size_zero_no_abort :
    queue_init_size 6 25 14 0 ≠ none ∧ ((0 : Int) < 6 ∨ (25 : Int) < 0) := by
  constructor
  · simp [queue_init_size]
  · left; norm_num

/-- C9 (amended).  `queue_init_size` aborts if and only if `size_log`
is nonzero and lies outside the valid range
`[QSIZE_LOG_MIN, QSIZE_LOG_MAX]`; a zero `size_log` selects the default
instead.  When it does not abort, it initializes the queue with a
single fresh segment of `2 ^ s` cells — where `s` is `size_log`, or the
default when `size_log = 0` — serving as both the enqueue and the
dequeue segment, with `len = 0` and `help_needed = 0`. -/
theorem queue_init_size_spec (qmin qmax qdef size_log : Int) :
    (queue_init_size qmin qmax qdef size_log = none ↔
      size_log ≠ 0 ∧ (size_log < qmin ∨ qmax < size_log)) ∧
    (∀ g0, queue_init_size qmin qmax qdef size_log = some g0 →
      g0.q.segments.enqueue_segment = g0.q.segments.dequeue_segment ∧
      g0.heap =
        [queue_new_segment
          (2 ^ (if size_log = 0 then qdef else size_log).toNat)] ∧
      getSeg g0 g0.q.segments.enqueue_segment =
        some (queue_new_segment
          (2 ^ (if size_log = 0 then qdef else size_log).toNat)) ∧
      g0.q.len = 0 ∧ g0.q.help_needed = 0) := by
  constructor
  · by_cases h0 : size_log = 0
    · simp [queue_init_size, h0]
    · by_cases hr : size_log < qmin ∨ qmax < size_log
      · simp [queue_init_size, h0, hr]
      · simp [queue_init_size, h0, hr]
  · intro g0 hg0
    by_cases h0 : size_log = 0
    · simp only [queue_init_size, if_pos h0] at hg0
      obtain rfl := Option.some.inj hg0.symm
      exact ⟨rfl, by simp [h0], by simp [h0, getSeg], rfl, rfl⟩
    · by_cases hr : size_log < qmin ∨ qmax < size_log
      · simp [queue_init_size, h0, hr] at hg0
      · simp only [queue_init_size, if_neg h0, if_neg hr] at hg0
        obtain rfl := Option.some.inj hg0.symm
        exact ⟨rfl, by simp [h0], by simp [h0, getSeg], rfl, rfl⟩

/-- Witness for C9's amended theorem: `size_log = 7` within the range
`[6, 25]` yields a 128-cell initial segment. -/
theorem queue_init_size_spec_witness :
    (⟨⟨⟨0, 0⟩, 128, 0, 0⟩, [queue_new_segment 128]⟩ :
        QState).q.segments.enqueue_segment =
      (⟨⟨⟨0, 0⟩, 128, 0, 0⟩, [queue_new_segment 128]⟩ :
        QState).q.segments.dequeue_segment ∧
    (⟨⟨⟨0, 0⟩, 128, 0, 0⟩, [queue_new_segment 128]⟩ : QState).heap =
      [queue_new_segment (2 ^ (if (7 : Int) = 0 then (14 : Int) else 7).toNat)] ∧
    getSeg ⟨⟨⟨0, 0⟩, 128, 0, 0⟩, [queue_new_segment 128]⟩
        (⟨⟨⟨0, 0⟩, 128, 0, 0⟩, [queue_new_segment 128]⟩ :
          QState).q.segments.enqueue_segment =
      some (queue_new_segment
        (2 ^ (if (7 : Int) = 0 then (14 : Int) else 7).toNat)) ∧
    (⟨⟨⟨0, 0⟩, 128, 0, 0⟩, [queue_new_segment 128]⟩ : QState).q.len = 0 ∧
    (⟨⟨⟨0, 0⟩, 128, 0, 0⟩, [queue_new_segment 128]⟩ : QState).q.help_needed = 0 :=
  (queue_init_size_spec 6 25 14 7).2
    ⟨⟨⟨0, 0⟩, 128, 0, 0⟩, [queue_new_segment 128]⟩ (by decide)

/-! ## The chain-order claim (C5) -/

set_option maxRecDepth 20000 in
/-- C5 (counterexample).  From an initialized two-cell queue, an
interleaving of three `queue_enqueue` and three `queue_dequeue` calls
reaches a state in which the dequeue segment is strictly further down
the next-chain than the enqueue segment: no next-chain starts at the
dequeue segment and ends at the enqueue segment (the dequeue segment is
the enqueue segment's successor). -/
theorem queue_deq_past_enq_reachable :
    queue_init_size 1 3 2 1 = some qDemoInit ∧
    nextOf (runSched ⟨qDemoInit, demoThreads⟩ demoSched).g
        (runSched ⟨qDemoInit, demoThreads⟩ demoSched).g.q.segments.enqueue_segment =
      some (runSched ⟨qDemoInit, demoThreads⟩ demoSched).g.q.segments.dequeue_segment ∧
    ¬ deqNotPastEnq (runSched ⟨qDemoInit, demoThreads⟩ demoSched).g := by
  have hsegs : (runSched ⟨qDemoInit, demoThreads⟩ demoSched).g.q.segments =
      ⟨0, 1⟩ := by decide
  have hnext1 : nextOf (runSched ⟨qDemoInit, demoThreads⟩ demoSched).g 1 = none := by
    decide
  refine ⟨by decide, by decide, ?_⟩
  rintro ⟨ch, hhead, hlast, hlinks⟩
  rw [hsegs] at hhead hlast
  match ch with
  | [] => exact absurd hhead (by simp)
  | [a] =>
    have ha1 : a = 1 := Option.some.inj hhead
    have ha0 : a = 0 := Option.some.inj hlast
    omega
  | a :: b :: rest =>
    have ha1 : a = 1 := Option.some.inj hhead
    subst ha1
    have := hlinks.1
    rw [hnext1] at this
    exact absurd this (by simp)

end Hatrack

namespace Hatrack

/-- C1 (code bug).  The comparator is claimed to return a positive value
whenever the first item's `sort_epoch` is strictly greater, for all
64-bit `sort_epoch` values.  At `sort_epoch1 = 2^32`, `sort_epoch2 = 0`
the 64-bit difference `2^32` truncates to the 32-bit return type as `0`:
the comparator reports the two view items equal although the first was
created strictly later, so quicksort may emit them out of order. -/
theorem hatrack_quicksort_cmp_truncates :
    hatrack_quicksort_cmp 4294967296 0 = 0 ∧ (4294967296 : Int) > 0 := by
  constructor
  · norm_num [hatrack_quicksort_cmp, toCInt32]
  · norm_num

end Hatrack

namespace Hatrack

/-- C4.  In the sequential embedding, after any initialization and any
sequence of enqueue and dequeue operations, `queue_dequeue` reports
not-found (`found = false`) precisely when every item enqueued so far
has already been dequeued (the number of enqueues equals the number of
found-reporting dequeues); otherwise it reports `found = true` and
returns an item that was enqueued by the sequence. -/
theorem queue_dequeue_not_found_iff_empty
    (qmin qmax qdef size_log : Int) (g0 g : QState)
    (ops : List SeqOp) (outs : List (Bool × Nat))
    (hinit : queue_init_size qmin qmax qdef size_log = some g0)
    (hrun : runOps g0 ops = some (g, outs)) :
    ∃ g' found x,
      queue_dequeue g (g.heap.length + 1) = some (g', found, x) ∧
      (found = false ↔ enqCount ops = foundCount outs) ∧
      (found = true → x ∈ enqItems ops) := by
  obtain ⟨ch0, hinv0, hp0⟩ := queue_init_InvC hinit
  obtain ⟨g1, outs1, hrun1, ch, hinv, hp, ho⟩ := runOps_spec ops g0 ch0 hinv0
  rw [hrun] at hrun1
  have hinj := Option.some.inj hrun1
  have hge : g = g1 := congrArg Prod.fst hinj
  have houts : outs = outs1 := congrArg Prod.snd hinj
  subst hge
  subst houts
  rw [hp0] at hp ho
  obtain ⟨g', found, x, hdeq, ch', hinv', hcase⟩ := dequeue_spec hinv
  refine ⟨g', found, x, hdeq, ?_, ?_⟩
  · constructor
    · intro hf
      rcases hcase with ⟨_, _, hpnil, _⟩ | ⟨ht, _⟩
      · rw [hp] at hpnil
        have hcount := absRun_count ops []
        rw [← ho, hpnil] at hcount
        simpa using hcount
      · rw [ht] at hf
        exact absurd hf (by simp)
    · intro hcnt
      rcases hcase with ⟨hf, _, _, _⟩ | ⟨ht, hx⟩
      · exact hf
      · exfalso
        have hcount := absRun_count ops []
        rw [← ho] at hcount
        simp only [List.length_nil] at hcount
        have h1 : (absRun [] ops).1.length = 0 := by omega
        have h2 : pendingC g ch = [] := by
          rw [hp]
          exact List.length_eq_zero.mp h1
        rw [hx] at h2
        exact absurd h2 (by simp)
  · intro hf
    rcases hcase with ⟨hff, _, _, _⟩ | ⟨_, hx⟩
    · rw [hff] at hf
      exact absurd hf (by simp)
    · have hxmem : x ∈ pendingC g ch := by
        rw [hx]
        exact List.mem_cons_self _ _
      rw [hp] at hxmem
      rcases absRun_mem ops [] x hxmem with h | h
      · exact absurd h (by simp)
      · exact h

/-- Witness for C4 at the freshly initialized two-cell queue and the
empty operation sequence: the dequeue reports not-found and zero
enqueues match zero found-dequeues. -/
theorem queue_dequeue_not_found_iff_empty_witness :
    ∃ g' found x,
      queue_dequeue qDemoInit (qDemoInit.heap.length + 1) =
        some (g', found, x) ∧
      (found = false ↔ enqCount [] = foundCount []) ∧
      (found = true → x ∈ enqItems []) :=
  queue_dequeue_not_found_iff_empty 1 3 2 1 qDemoInit qDemoInit [] []
    (by decide) rfl

/-- C7.  In the sequential embedding, from every reachable queue state
`queue_enqueue` is total (it returns within fuel 2, never surfacing an
error), installs the item into exactly one cell — a cell that either
did not exist before (a fresh segment's cell 0) or was EMPTY, every
other pre-existing cell being left unchanged — and increments `len` by
exactly 1. -/
theorem queue_enqueue_total
    (qmin qmax qdef size_log : Int) (g0 g : QState)
    (ops : List SeqOp) (outs : List (Bool × Nat)) (item : Nat)
    (hinit : queue_init_size qmin qmax qdef size_log = some g0)
    (hrun : runOps g0 ops = some (g, outs)) :
    ∃ g', queue_enqueue g item 2 = some g' ∧
      g'.q.len = g.q.len + 1 ∧
      (∃ s i, getCellQ g' s i = some ⟨item, .used⟩ ∧
        (getCellQ g s i = none ∨ getCellQ g s i = some empty_cell) ∧
        ∀ s' i' c, ¬(s' = s ∧ i' = i) → getCellQ g s' i' = some c →
          getCellQ g' s' i' = some c) := by
  obtain ⟨ch0, hinv0, _⟩ := queue_init_InvC hinit
  obtain ⟨g1, outs1, hrun1, ch, hinv, _, _⟩ := runOps_spec ops g0 ch0 hinv0
  rw [hrun] at hrun1
  have hge : g = g1 := congrArg Prod.fst (Option.some.inj hrun1)
  subst hge
  obtain ⟨g', henq, hlen, _, _, hcells⟩ := enqueue_spec hinv item
  exact ⟨g', henq, hlen, hcells⟩

/-- Witness for C7: enqueuing item 7 onto the freshly initialized
two-cell queue. -/
theorem queue_enqueue_total_witness :
    ∃ g', queue_enqueue qDemoInit 7 2 = some g' ∧
      g'.q.len = qDemoInit.q.len + 1 ∧
      (∃ s i, getCellQ g' s i = some ⟨7, .used⟩ ∧
        (getCellQ qDemoInit s i = none ∨
          getCellQ qDemoInit s i = some empty_cell) ∧
        ∀ s' i' c, ¬(s' = s ∧ i' = i) →
          getCellQ qDemoInit s' i' = some c →
          getCellQ g' s' i' = some c) :=
  queue_enqueue_total 1 3 2 1 qDemoInit qDemoInit [] [] 7 (by decide) rfl

/-- C5 (amended).  In the sequential embedding (each operation running
to completion without interleaving), in every reachable state the
dequeue segment is never further down the segment next-chain than the
enqueue segment: a next-chain runs from the dequeue segment to the
enqueue segment.  (Under concurrent interleaving this fails
transiently; see the counterexample.) -/
theorem queue_deq_not_past_enq_sequential
    (qmin qmax qdef size_log : Int) (g0 g : QState)
    (ops : List SeqOp) (outs : List (Bool × Nat))
    (hinit : queue_init_size qmin qmax qdef size_log = some g0)
    (hrun : runOps g0 ops = some (g, outs)) :
    deqNotPastEnq g := by
  obtain ⟨ch0, hinv0, _⟩ := queue_init_InvC hinit
  obtain ⟨g1, outs1, hrun1, ch, hinv, _, _⟩ := runOps_spec ops g0 ch0 hinv0
  rw [hrun] at hrun1
  have hge : g = g1 := congrArg Prod.fst (Option.some.inj hrun1)
  subst hge
  exact ⟨ch, hinv.head_deq, hinv.last_enq, hinv.linked⟩

/-- Witness for C5's amended theorem at the freshly initialized
queue. -/
theorem queue_deq_not_past_enq_sequential_witness :
    deqNotPastEnq qDemoInit :=
  queue_deq_not_past_enq_sequential 1 3 2 1 qDemoInit qDemoInit [] []
    (by decide) rfl

end Hatrack
